import Mathlib

/-!
Verification of the wireplus provider-set grouper and graph builders.

The definitions below are shallow embeddings of the Go functions in
`internal/wire/lsp/lsp.go` (the grouper `gather` and its helpers
`sameTypeKeys`, `mergeTypeSets`) and `internal/wire/graph.go`
(`parentKeys`, the dependency-edge builders `addDepsForNewSet` /
`addDepsForBuild` of both graph builders, and
`CytospaceBuilder.addInputsForNewSet`).

Go `types.Type` values are opaque hashable handles; they are embedded as
natural numbers (`TypeId`).  `typeutil.Map` keyed by types with
set-like usage is embedded as `Finset TypeId`.  Go slices used as
stacks (top at the end) are embedded as Lean lists with the head as the
top of the stack.  Loops whose termination is not syntactically evident
(the DFS worklist loop of `gather`) are embedded with explicit fuel,
returning `none` when the fuel runs out.
-/

namespace Wireplus

/-- Opaque, comparable handle for a Go type (`types.Type`). -/
abbrev TypeId := Nat

/-- Result of `ProviderSet.For` as consumed by `gather`: either no binding
(`isNil`, an external input), an injector argument, a provider with its
ordered argument types, a value expression, or a field accessor with its
parent struct type. -/
inductive ProvidedType where
  | isNil : ProvidedType
  | isArg : ProvidedType
  | isProvider (args : List TypeId) : ProvidedType
  | isValue : ProvidedType
  | isField (parent : TypeId) : ProvidedType
deriving DecidableEq, Repr

/-- The flattened view of a provider set that `gather` consumes:
`For` is `ProviderSet.For`, `outputs` is `ProviderSet.Outputs()` in its
fixed traversal order, and `typeStr` is `types.TypeString (·, nil)`. -/
structure ProviderSet where
  For : TypeId → ProvidedType
  outputs : List TypeId
  typeStr : TypeId → String

/-- One output group of `gather` (Go struct `outGroup` in lsp.go):
a name, the set of required input types and the set of member output
types (the keys of the Go `outputs` map; its payload pointers are used
only for display positions and are dropped here). -/
structure outGroup where
  name : String
  inputs : Finset TypeId
  outputs : Finset TypeId
deriving DecidableEq

instance : Inhabited outGroup := ⟨⟨"", ∅, ∅⟩⟩

/-- Value stored in the Go `inputVisited` map: `-1` for inputs and
injector arguments (`input`), or an index into `groups` (`group i`). -/
inductive VMark where
  | input : VMark
  | group (i : Nat) : VMark
deriving DecidableEq, Repr

/-- Pointwise update of a visitation table (a Go map write). -/
def updFn (f : TypeId → Option VMark) (a : TypeId) (v : Option VMark) :
    TypeId → Option VMark :=
  fun x => if x = a then v else f x

/-- Go `sameTypeKeys` from lsp.go: the maps agree when they have the same
length and every key of `a` is a key of `b`. -/
def sameTypeKeys (a b : Finset TypeId) : Bool :=
  decide (a.card = b.card) && decide (a ⊆ b)

/-- Go `mergeTypeSets` from lsp.go: insert every key of `src` into `dst`. -/
def mergeTypeSets (dst src : Finset TypeId) : Finset TypeId :=
  dst ∪ src

/-- The `for i := range groups` linear search of `gather`: index of the
first group satisfying the predicate. -/
def findGroup (p : outGroup → Bool) : List outGroup → Option Nat
  | [] => none
  | g :: gs => if p g then some 0 else (findGroup p gs).map (· + 1)

/-- `groups[i].outputs.Set(curr, _)`: add a member to group `i`. -/
def addOutputAt : List outGroup → Nat → TypeId → List outGroup
  | [], _, _ => []
  | g :: gs, 0, t => { g with outputs := insert t g.outputs } :: gs
  | g :: gs, n + 1, t => g :: addOutputAt gs n t

/-- The input set built for a provider whose args are all visited
(the `for _, arg := range p.Args` loop of the `IsProvider` case):
a `-1` mark contributes the arg type itself, a group mark contributes
that group's inputs.  The `none` branch is unreachable at every call
site because the loop runs only when `allPresent` holds. -/
def argInputs (visited : TypeId → Option VMark) (groups : List outGroup)
    (args : List TypeId) : Finset TypeId :=
  args.foldl
    (fun acc a =>
      match visited a with
      | some .input => insert a acc
      | some (.group i) => mergeTypeSets acc ((groups.getD i default).inputs)
      | none => acc)
    ∅

/-- State of `gather`'s depth-first walk: the provider set being read
(never written), the explicit stack `stk` (head = top), the
`inputVisited` table and the groups built so far. -/
structure GatherState where
  set : ProviderSet
  stk : List TypeId
  inputVisited : TypeId → Option VMark
  groups : List outGroup

/-- The group-matching tail shared by the `IsProvider` and `IsField`
cases of `gather`'s DFS (lsp.go lines 591-605 and 642-656): find the
first group whose inputs equal `inSet` and add `curr` to it, else
append a fresh group. -/
def classify (s : GatherState) (curr : TypeId) (rest : List TypeId)
    (inSet : Finset TypeId) : GatherState :=
  match findGroup (fun g => sameTypeKeys g.inputs inSet) s.groups with
  | some i =>
      { s with stk := rest,
               inputVisited := updFn s.inputVisited curr (some (.group i)),
               groups := addOutputAt s.groups i curr }
  | none =>
      { s with stk := rest,
               inputVisited := updFn s.inputVisited curr (some (.group s.groups.length)),
               groups := s.groups ++ [⟨"", inSet, {curr}⟩] }

/-- The input set the `IsField` case computes for a visited parent
(lsp.go lines 632-640). -/
def fieldInputs (s : GatherState) (parent : TypeId) : Finset TypeId :=
  match s.inputVisited parent with
  | some .input => ({parent} : Finset TypeId)
  | some (.group i) => mergeTypeSets ∅ ((s.groups.getD i default).inputs)
  | none => ∅

/-- One iteration of the `for len(stk) > 0` DFS loop of `gather`,
translated case by case from lsp.go lines 547-661. -/
def step (s : GatherState) : GatherState :=
  match s.stk with
  | [] => s
  | curr :: rest =>
    if (s.inputVisited curr).isSome then { s with stk := rest }
    else
      match s.set.For curr with
      | .isNil =>
          { s with stk := rest, inputVisited := updFn s.inputVisited curr (some .input) }
      | .isArg =>
          { s with stk := rest, inputVisited := updFn s.inputVisited curr (some .input) }
      | .isProvider args =>
          if (args.filter (fun a => (s.inputVisited a).isNone)).isEmpty then
            classify s curr rest (argInputs s.inputVisited s.groups args)
          else
            { s with stk := (args.filter (fun a => (s.inputVisited a).isNone)).reverse
                              ++ curr :: rest }
      | .isValue =>
          match findGroup (fun g => decide (g.inputs.card = 0)) s.groups with
          | some i =>
              { s with stk := rest,
                       inputVisited := updFn s.inputVisited curr (some (.group i)),
                       groups := addOutputAt s.groups i curr }
          | none =>
              { s with stk := rest,
                       inputVisited := updFn s.inputVisited curr (some (.group s.groups.length)),
                       groups := s.groups ++ [⟨"", ∅, {curr}⟩] }
      | .isField parent =>
          if (s.inputVisited parent).isNone then
            { s with stk := parent :: curr :: rest }
          else
            classify s curr rest (fieldInputs s parent)

/-- Run the DFS loop until the stack is empty, with fuel; `none` means the
loop ran longer than the fuel (in particular, a non-terminating run is
`none` for every fuel). -/
def drain : Nat → GatherState → Option GatherState
  | 0, s => if s.stk.isEmpty then some s else none
  | n + 1, s => if s.stk.isEmpty then some s else drain n (step s)

/-- The `if inputVisited.At(k) == nil` push that starts a DFS from an
output type (the stack is empty whenever this runs). -/
def pushOutput (s : GatherState) (k : TypeId) : GatherState :=
  if (s.inputVisited k).isNone then { s with stk := k :: s.stk } else s

/-- Fresh state allocated at the start of each `gather` call. -/
def gatherStart (set : ProviderSet) : GatherState :=
  ⟨set, [], fun _ => none, []⟩

/-- The whole DFS phase of `gather`: the `for _, k := range set.Outputs()`
loop, each iteration pushing the output if unvisited and draining. -/
def gatherLoop (set : ProviderSet) (fuel : Nat) : Option GatherState :=
  set.outputs.foldlM (fun s k => drain fuel (pushOutput s k)) (gatherStart set)

/-- Go `strings.Join(elems, ", ")`. -/
def joinComma : List String → String
  | [] => ""
  | [a] => a
  | a :: b :: rest => a ++ ", " ++ joinComma (b :: rest)

/-- Go `sort.Strings`: sort a string slice ascending (embedded as a
structurally recursive insertion sort, whose output — a sorted
permutation — is the contract `sort.Strings` guarantees). -/
def sortStrings (l : List String) : List String :=
  l.insertionSort (· ≤ ·)

/-- The ascending list of the elements of a finite set of type ids;
the canonical enumeration of a `typeutil.Map`'s keys. -/
def finsetAscList (s : Finset TypeId) : List TypeId :=
  Quot.liftOn s.val (List.insertionSort (· ≤ ·))
    (fun _ _ h =>
      List.eq_of_perm_of_sorted
        ((List.perm_insertionSort _ _).trans
          (h.trans (List.perm_insertionSort _ _).symm))
        (List.sorted_insertionSort _ _)
        (List.sorted_insertionSort _ _))

/-- The naming loop of `gather` (lsp.go lines 664-675): empty input set
gives the literal name, otherwise the sorted, comma-joined type strings
of the inputs. -/
def nameGroup (typeStr : TypeId → String) (g : outGroup) : outGroup :=
  if g.inputs.card = 0 then { g with name := "no inputs" }
  else { g with name := joinComma (sortStrings ((finsetAscList g.inputs).map typeStr)) }

/-- The `sort.Slice` comparator of `gather` (lsp.go lines 676-681). -/
def groupLess (a b : outGroup) : Bool :=
  if a.inputs.card = b.inputs.card then decide (a.name < b.name)
  else decide (a.inputs.card < b.inputs.card)

/-- `a` may precede `b` in the sorted group sequence: `b` is not
`groupLess` than `a`. -/
def groupRel (a b : outGroup) : Prop :=
  groupLess b a = false

instance : DecidableRel groupRel :=
  fun a b => inferInstanceAs (Decidable (groupLess b a = false))

instance : IsTotal outGroup groupRel :=
  ⟨by
    intro a b
    unfold groupRel groupLess
    by_cases hc : a.inputs.card = b.inputs.card
    · rw [if_pos hc.symm, if_pos hc]
      rcases le_total a.name b.name with h | h
      · exact Or.inl (decide_eq_false (not_lt.mpr h))
      · exact Or.inr (decide_eq_false (not_lt.mpr h))
    · rw [if_neg (fun hh => hc (Eq.symm hh)), if_neg hc]
      rcases Nat.le_total a.inputs.card b.inputs.card with h | h
      · exact Or.inl (decide_eq_false (not_lt.mpr h))
      · exact Or.inr (decide_eq_false (not_lt.mpr h))⟩

instance : IsTrans outGroup groupRel :=
  ⟨by
    have key : ∀ x y : outGroup, groupLess x y = false ↔
        (y.inputs.card < x.inputs.card ∨
          (x.inputs.card = y.inputs.card ∧ y.name ≤ x.name)) := by
      intro x y
      unfold groupLess
      by_cases h : x.inputs.card = y.inputs.card
      · rw [if_pos h, decide_eq_false_iff_not, not_lt]
        constructor
        · intro hle; exact Or.inr ⟨h, hle⟩
        · rintro (hlt | ⟨_, hle⟩)
          · omega
          · exact hle
      · rw [if_neg h, decide_eq_false_iff_not, not_lt]
        constructor
        · intro hle
          exact Or.inl (lt_of_le_of_ne hle (fun hh => h hh.symm))
        · rintro (hlt | ⟨heq, _⟩)
          · exact le_of_lt hlt
          · exact absurd heq h
    intro a b c hab hbc
    unfold groupRel at hab hbc ⊢
    rw [key] at hab hbc ⊢
    rcases hab with h1 | ⟨h1, hn1⟩ <;> rcases hbc with h2 | ⟨h2, hn2⟩
    · exact Or.inl (h1.trans h2)
    · exact Or.inl (by omega)
    · exact Or.inl (by omega)
    · exact Or.inr ⟨by omega, le_trans hn1 hn2⟩⟩

/-- `sort.Slice(groups, less)`: a permutation of the groups in which no
later group is `groupLess` than an earlier one (embedded as an
insertion sort by the complement of the comparator). -/
def sortGroups (l : List outGroup) : List outGroup :=
  l.insertionSort groupRel

/-- The grouper `gather` of lsp.go (its group-building result; the
`imports` side result is independent of the DFS and not modelled):
run the DFS over all outputs, then name and sort the groups. -/
def gather (set : ProviderSet) (fuel : Nat) : Option (List outGroup) :=
  (gatherLoop set fuel).map (fun s => sortGroups (s.groups.map (nameGroup set.typeStr)))

/-- Dependency types of a binding: a provider depends on its args, a
field accessor on its parent struct type, everything else on nothing. -/
def deps (pt : ProvidedType) : List TypeId :=
  match pt with
  | .isProvider args => args
  | .isField parent => [parent]
  | _ => []

/-- A rank function witnessing that the provider graph is acyclic: every
dependency strictly decreases the rank. -/
def RankOk (set : ProviderSet) (r : TypeId → Nat) : Prop :=
  ∀ t, ∀ a ∈ deps (set.For t), r a < r t

/-- Modelled from the spec (§4.3): the minimal required-input set of an
output type, computed recursively with fuel — an external input or
injector argument contributes itself, a value literal contributes the
empty set, any other provider contributes the union of the minimal sets
of its args, and a field accessor behaves as a one-arg provider whose
single dependency is its parent. -/
def specMinInputs (set : ProviderSet) : Nat → TypeId → Finset TypeId
  | 0, _ => ∅
  | n + 1, t =>
    match set.For t with
    | .isNil => {t}
    | .isArg => {t}
    | .isValue => ∅
    | .isProvider args => args.foldl (fun acc a => acc ∪ specMinInputs set n a) ∅
    | .isField parent => specMinInputs set n parent

/-- The minimal required-input set of `t`, evaluated at sufficient fuel. -/
def minIn (set : ProviderSet) (r : TypeId → Nat) (t : TypeId) : Finset TypeId :=
  specMinInputs set (r t + 1) t

end Wireplus
section GraphBuilders

namespace Wireplus

/-- The source record of a binding (`providerSetSrc` in the wire
package, as consumed by `parentKeys` in graph.go): either the binding is
local to the set (`Import == nil`), or it came through an import whose
variable name, package path and per-type source map are recorded.  The
partial map `Import.srcMap.At` is embedded as the pair of a domain
predicate `found` and a total lookup `srcMap` (so that the recursion of
`parentKeys` stays structural): `At t` is nil iff `found t` is false. -/
inductive providerSetSrc : Type where
  | localSrc : providerSetSrc
  | viaImport (varName pkgPath : String) (found : TypeId → Bool)
      (srcMap : TypeId → providerSetSrc) : providerSetSrc

/-- Go `parentKeys` from graph.go lines 108-123: the chain of importing
provider-set keys for the binding of type `t`, outermost first. -/
def parentKeys : providerSetSrc → TypeId → List String
  | .localSrc, _ => []
  | .viaImport varName pkgPath found srcMap, t =>
    if found t then
      (if varName = "" then "<anonymous>" ++ "#" ++ pkgPath
       else varName ++ "#" ++ pkgPath) :: parentKeys (srcMap t) t
    else [pkgPath]

/-- The chain of `(importerVarName, pkgPath)` steps from the root set
down to the set defining the binding of `t`, defined when every
step's source map resolves `t`; stated from the spec's description of
the origin chain (§4.1), for comparison with `parentKeys`. -/
def importChain : providerSetSrc → TypeId → Option (List (String × String))
  | .localSrc, _ => some []
  | .viaImport varName pkgPath found srcMap, t =>
    if found t then
      (importChain (srcMap t) t).map (fun ch => (varName, pkgPath) :: ch)
    else none

/-- The key `parentKeys` is expected to emit for one import step. -/
def stepKey (s : String × String) : String :=
  if s.1 = "" then "<anonymous>" ++ "#" ++ s.2 else s.1 ++ "#" ++ s.2

/-- A call of the expanded solution as the dependency-edge builders see
it: its ordered integer arg slots.  The node key produced by `callKey`
is abstracted as a function parameter, since it formats Go AST
fragments that are outside this embedding. -/
structure wcall where
  args : List Nat
deriving DecidableEq

instance : Inhabited wcall := ⟨⟨[]⟩⟩

/-- An injector input variable, with the two attributes `inputKey`
reads: its name and the string form of its type. -/
structure winput where
  name : String
  typeString : String
deriving DecidableEq

/-- Go `inputKey` from graph.go: name and type joined by `#`. -/
def inputKey (i : winput) : String :=
  i.name ++ "#" ++ i.typeString

/-- Target node of one arg slot in `addDepsForNewSet` (both the Graphviz
and the Cytospace builder use this same branch, graph.go lines 214-230
and 398-420): slots past the calls index into `missing` (already in
string form there), the rest index into `calls`.  `none` models the Go
panic of an out-of-range index. -/
def newSetArgTarget (ck : wcall → String) (calls : List wcall)
    (missing : List String) (arg : Nat) : Option String :=
  if calls.length ≤ arg then missing.get? (arg - calls.length)
  else (calls.get? arg).map ck

/-- Target node of one arg slot in `addDepsForBuild` (graph.go lines
232-246 and 422-441): slots below the inputs length index into `ins`,
the rest index into `calls`. -/
def buildArgTarget (ck : wcall → String) (ins : List winput)
    (calls : List wcall) (arg : Nat) : Option String :=
  if arg < ins.length then (ins.get? arg).map inputKey
  else (calls.get? (arg - ins.length)).map ck

/-- Left-to-right effectful map over `Option`, stopping at the first
`none` (a Go loop that panics at the first bad element). -/
def mapMOpt {α β : Type} (f : α → Option β) : List α → Option (List β)
  | [] => some []
  | a :: l =>
    match f a with
    | none => none
    | some b => (mapMOpt f l).map (fun bs => b :: bs)

/-- Graphviz `addDepsForNewSet`: one directed edge per arg slot of each
call, in call order then arg order. -/
def addDepsForNewSet (ck : wcall → String) (calls : List wcall)
    (missing : List String) : Option (List (String × String)) :=
  (mapMOpt (fun c =>
    mapMOpt (fun arg =>
      (newSetArgTarget ck calls missing arg).map (fun tgt => (ck c, tgt)))
      c.args) calls).map List.flatten

/-- Graphviz `addDepsForBuild`: one directed edge per arg slot of each
call. -/
def addDepsForBuild (ck : wcall → String) (calls : List wcall)
    (ins : List winput) : Option (List (String × String)) :=
  (mapMOpt (fun c =>
    mapMOpt (fun arg =>
      (buildArgTarget ck ins calls arg).map (fun tgt => (ck c, tgt)))
      c.args) calls).map List.flatten

/-- Go `strings.Split(s, "#")` on the character list of `s`. -/
def splitHash : List Char → List (List Char)
  | [] => [[]]
  | c :: cs =>
    if c = '#' then [] :: splitHash cs
    else
      match splitHash cs with
      | [] => [[c]]
      | h :: t => (c :: h) :: t

/-- Node data of the Cytospace JSON model (graph.go). -/
structure cytospaceNodeData where
  id : String
  parent : Option String
  content : String
  tooltip : String
  subgraph : Bool
  shape : String
deriving DecidableEq

/-- One node built by `CytospaceBuilder.addInputsForNewSet` (graph.go
lines 296-311): content is `strings.Split(key, "#")[0]` and tooltip is
`strings.Split(key, "#")[1]`; `none` models the Go index-out-of-range
panic. -/
def cytospaceInputNodeForNewSet (key : String) : Option cytospaceNodeData :=
  match (splitHash key.data).get? 0, (splitHash key.data).get? 1 with
  | some content, some tooltip =>
      some ⟨key, none, String.mk content, String.mk tooltip, false, "octagon"⟩
  | _, _ => none

/-- `CytospaceBuilder.addInputsForNewSet` over the bare type strings of
the missing types. -/
def cytospaceAddInputsForNewSet (missing : List String) :
    Option (List cytospaceNodeData) :=
  mapMOpt cytospaceInputNodeForNewSet missing

/-- Concrete chain used to witness C8. -/
def c8src : providerSetSrc :=
  .viaImport "setC" "pkg/c" (fun _ => true)
    (fun _ => .viaImport "" "pkg/b" (fun _ => true) (fun _ => .localSrc))

end Wireplus

end GraphBuilders

section InvariantDefs

namespace Wireplus

/-- The loop invariant of `gather`'s DFS, relating the visitation table
and the groups built so far to the recursive minimal-input sets:
group marks stay in range, `-1` marks are exactly the unbound types,
every group-marked type sits in its group and that group's inputs are
its minimal required-input set, group membership determines the mark,
and distinct groups have distinct input sets. -/
structure Inv (r : TypeId → Nat) (s : GatherState) : Prop where
  grpLt : ∀ t i, s.inputVisited t = some (.group i) → i < s.groups.length
  inpOk : ∀ t, s.inputVisited t = some .input →
            s.set.For t = .isNil ∨ s.set.For t = .isArg
  grpOk : ∀ t i, s.inputVisited t = some (.group i) →
            (s.groups.getD i default).inputs = minIn s.set r t ∧
            t ∈ (s.groups.getD i default).outputs
  memOk : ∀ i, i < s.groups.length →
            ∀ t ∈ (s.groups.getD i default).outputs,
              s.inputVisited t = some (.group i)
  distinct : ∀ i j, i < s.groups.length → j < s.groups.length → i ≠ j →
            (s.groups.getD i default).inputs ≠ (s.groups.getD j default).inputs

/-- One visitation table extends another. -/
def vExt (v w : TypeId → Option VMark) : Prop :=
  ∀ t m, v t = some m → w t = some m

/-- Number of types of the finite universe `U` not yet visited. -/
def unvisCount (U : Finset TypeId) (v : TypeId → Option VMark) : Nat :=
  (U.filter (fun t => v t = none)).card

/-- Types reachable from `t` along dependency edges, to depth `n`. -/
def reachF (set : ProviderSet) : Nat → TypeId → Finset TypeId
  | 0, t => {t}
  | n + 1, t =>
      insert t ((deps (set.For t)).foldl (fun acc a => acc ∪ reachF set n a) ∅)

/-- A two-provider dependency cycle: the provider for type `0` needs
type `1` and vice versa; `0` is the only requested output. -/
def cycSet : ProviderSet :=
  { For := fun t => if t = 0 then .isProvider [1]
                    else if t = 1 then .isProvider [0]
                    else .isNil,
    outputs := [0],
    typeStr := fun _ => "T" }

/-- A small acyclic scope used by several witnesses: type `0` is built
by a provider from an input `1` and a value `2`; type `3` is a field
accessor on the struct `0`; outputs are `0` and `3`. -/
def accSet : ProviderSet :=
  { For := fun t =>
      if t = 0 then .isProvider [1, 2]
      else if t = 2 then .isValue
      else if t = 3 then .isField 0
      else .isNil,
    outputs := [0, 3],
    typeStr := fun t => if t = 1 then "pkg.Input" else "T" }

/-- Rank function witnessing that `accSet` is acyclic. -/
def accRank : TypeId → Nat :=
  fun t => if t = 0 then 1 else if t = 3 then 2 else 0

/-- The groups `gather` produces on `accSet`. -/
def accGl : List outGroup :=
  [⟨"no inputs", ∅, {2}⟩, ⟨"pkg.Input", {1}, {0, 3}⟩]

/-- Kernel-evaluable equality test on groups (set equality checked via
`sameTypeKeys`, which avoids quotient equality). -/
def outGroupEqb (g h : outGroup) : Bool :=
  decide (g.name = h.name) && sameTypeKeys g.inputs h.inputs &&
    sameTypeKeys g.outputs h.outputs

/-- Kernel-evaluable equality test on group lists. -/
def glEqb : List outGroup → List outGroup → Bool
  | [], [] => true
  | g :: gs, h :: hs => outGroupEqb g h && glEqb gs hs
  | _, _ => false

/-- Kernel-evaluable equality test on `gather` results. -/
def resEqb : Option (List outGroup) → Option (List outGroup) → Bool
  | none, none => true
  | some gs, some hs => glEqb gs hs
  | _, _ => false

/-- A second copy of `accSet`, field for field. -/
def accSetCopy : ProviderSet :=
  { For := fun t =>
      if t = 0 then .isProvider [1, 2]
      else if t = 2 then .isValue
      else if t = 3 then .isField 0
      else .isNil,
    outputs := [0, 3],
    typeStr := fun t => if t = 1 then "pkg.Input" else "T" }

/-- A provider set with no requested outputs. -/
def emptyOutSet : ProviderSet :=
  ⟨fun _ => .isNil, [], fun _ => "T"⟩

end Wireplus

end InvariantDefs

section BasicLemmas

namespace Wireplus

theorem sameTypeKeys_iff (a b : Finset TypeId) : sameTypeKeys a b = true ↔ a = b := by
  unfold sameTypeKeys
  simp only [Bool.and_eq_true, decide_eq_true_eq]
  constructor
  · rintro ⟨hcard, hsub⟩
    exact Finset.eq_of_subset_of_card_le hsub (le_of_eq hcard.symm)
  · rintro rfl; exact ⟨rfl, Finset.Subset.refl a⟩

theorem findGroup_some {p : outGroup → Bool} {l : List outGroup} {i : Nat}
    (h : findGroup p l = some i) :
    i < l.length ∧ p (l.getD i default) = true := by
  induction l generalizing i with
  | nil => simp [findGroup] at h
  | cons g gs ih =>
    unfold findGroup at h
    by_cases hp : p g
    · simp [hp] at h
      subst h
      simpa using hp
    · simp [hp] at h
      obtain ⟨j, hj, rfl⟩ := h
      obtain ⟨h1, h2⟩ := ih hj
      constructor
      · simpa using Nat.succ_lt_succ h1
      · simpa using h2

theorem findGroup_none {p : outGroup → Bool} {l : List outGroup}
    (h : findGroup p l = none) :
    ∀ j < l.length, p (l.getD j default) = false := by
  induction l with
  | nil => intro j hj; simp at hj
  | cons g gs ih =>
    unfold findGroup at h
    by_cases hp : p g
    · simp [hp] at h
    · simp [hp] at h
      intro j hj
      cases j with
      | zero => simpa using Bool.of_not_eq_true hp
      | succ j =>
        simp only [List.length_cons, Nat.succ_lt_succ_iff] at hj
        simpa using ih h j hj

theorem length_addOutputAt (l : List outGroup) (i : Nat) (t : TypeId) :
    (addOutputAt l i t).length = l.length := by
  induction l generalizing i with
  | nil => rfl
  | cons g gs ih =>
    cases i with
    | zero => rfl
    | succ i => simpa [addOutputAt] using ih i

theorem getD_addOutputAt_ne (l : List outGroup) (i j : Nat) (t : TypeId)
    (h : j ≠ i) :
    (addOutputAt l i t).getD j default = l.getD j default := by
  induction l generalizing i j with
  | nil => rfl
  | cons g gs ih =>
    cases i with
    | zero =>
      cases j with
      | zero => exact absurd rfl h
      | succ j => rfl
    | succ i =>
      cases j with
      | zero => rfl
      | succ j =>
        simpa [addOutputAt] using ih i j (fun hji => h (by omega))

theorem getD_addOutputAt_eq (l : List outGroup) (i : Nat) (t : TypeId)
    (h : i < l.length) :
    (addOutputAt l i t).getD i default =
      { l.getD i default with outputs := insert t (l.getD i default).outputs } := by
  induction l generalizing i with
  | nil => simp at h
  | cons g gs ih =>
    cases i with
    | zero => rfl
    | succ i =>
      simp only [List.length_cons, Nat.succ_lt_succ_iff] at h
      simpa [addOutputAt] using ih i h

theorem getD_append_lt (l l' : List outGroup) (j : Nat) (h : j < l.length) :
    (l ++ l').getD j default = l.getD j default := by
  induction l generalizing j with
  | nil => simp at h
  | cons g gs ih =>
    cases j with
    | zero => rfl
    | succ j =>
      simp only [List.length_cons, Nat.succ_lt_succ_iff] at h
      simpa using ih j h

theorem getD_append_len (l : List outGroup) (g : outGroup) :
    (l ++ [g]).getD l.length default = g := by
  induction l with
  | nil => rfl
  | cons a l ih => simp [ih]

theorem mem_of_getD {l : List outGroup} {i : Nat} (h : i < l.length) :
    l.getD i default ∈ l := by
  induction l generalizing i with
  | nil => simp at h
  | cons g gs ih =>
    cases i with
    | zero => exact List.mem_cons_self _ _
    | succ i =>
      simp only [List.length_cons, Nat.succ_lt_succ_iff] at h
      exact List.mem_cons_of_mem _ (ih h)

theorem outGroupEqb_sound {g h : outGroup} (he : outGroupEqb g h = true) :
    g = h := by
  unfold outGroupEqb at he
  simp only [Bool.and_eq_true, decide_eq_true_eq] at he
  obtain ⟨⟨h1, h2⟩, h3⟩ := he
  obtain ⟨n1, i1, o1⟩ := g
  obtain ⟨n2, i2, o2⟩ := h
  dsimp only at h1 h2 h3
  rw [(sameTypeKeys_iff _ _).mp h2] at *
  rw [(sameTypeKeys_iff _ _).mp h3]
  rw [h1]

theorem glEqb_sound : ∀ {gs hs : List outGroup}, glEqb gs hs = true → gs = hs := by
  intro gs
  induction gs with
  | nil => intro hs he; cases hs with
    | nil => rfl
    | cons h hs => cases he
  | cons g gs ih =>
    intro hs he
    cases hs with
    | nil => cases he
    | cons h hs =>
      unfold glEqb at he
      simp only [Bool.and_eq_true] at he
      rw [outGroupEqb_sound he.1, ih he.2]

theorem resEqb_sound : ∀ {x y : Option (List outGroup)}, resEqb x y = true → x = y := by
  intro x y he
  cases x <;> cases y
  · rfl
  · cases he
  · cases he
  · unfold resEqb at he
    rw [glEqb_sound he]

theorem mem_iff_getD {l : List outGroup} {g : outGroup} :
    g ∈ l ↔ ∃ i, i < l.length ∧ l.getD i default = g := by
  constructor
  · intro h
    induction l with
    | nil => simp at h
    | cons a l ih =>
      rcases List.mem_cons.mp h with rfl | h
      · exact ⟨0, by simp, rfl⟩
      · obtain ⟨i, hi, hg⟩ := ih h
        exact ⟨i + 1, by simpa using Nat.succ_lt_succ hi, by simpa using hg⟩
  · rintro ⟨i, hi, rfl⟩
    exact mem_of_getD hi

end Wireplus

end BasicLemmas
section GraphBuilderLemmas

namespace Wireplus

theorem splitHash_no_hash (cs : List Char) (h : '#' ∉ cs) :
    splitHash cs = [cs] := by
  induction cs with
  | nil => rfl
  | cons c cs ih =>
    have hc : c ≠ '#' := fun hc => h (hc ▸ List.mem_cons_self c cs)
    have hcs : '#' ∉ cs := fun hm => h (List.mem_cons_of_mem c hm)
    simp only [splitHash, if_neg hc, ih hcs]

theorem mapMOpt_eq_none {α β : Type} (f : α → Option β) (l : List α) (a : α)
    (ha : a ∈ l) (hf : f a = none) : mapMOpt f l = none := by
  induction l with
  | nil => simp at ha
  | cons b l ih =>
    rcases List.mem_cons.mp ha with rfl | ha
    · simp [mapMOpt, hf]
    · cases hb : f b with
      | none => simp [mapMOpt, hb]
      | some v => simp [mapMOpt, hb, ih ha]

end Wireplus

end GraphBuilderLemmas

section EasyClaims

namespace Wireplus

theorem parentKeys_is_import_chain (p : providerSetSrc) (t : TypeId)
    (ch : List (String × String)) (h : importChain p t = some ch) :
    parentKeys p t = ch.map stepKey := by
  induction p generalizing ch with
  | localSrc =>
    simp only [importChain] at h
    cases h
    rfl
  | viaImport varName pkgPath found srcMap ih =>
    simp only [importChain] at h
    by_cases hm : found t
    · rw [if_pos hm] at h
      simp only [Option.map_eq_some'] at h
      obtain ⟨ch', hch', rfl⟩ := h
      simp only [parentKeys, if_pos hm, List.map_cons]
      rw [ih t ch' hch']
      rfl
    · rw [if_neg hm] at h
      exact absurd h (by simp)

theorem parentKeys_is_import_chain_witness :
    importChain c8src 0 = some [("setC", "pkg/c"), ("", "pkg/b")] ∧
    parentKeys c8src 0 = ["setC" ++ "#" ++ "pkg/c", "<anonymous>" ++ "#" ++ "pkg/b"] := by
  refine ⟨rfl, ?_⟩
  rw [parentKeys_is_import_chain c8src 0 [("setC", "pkg/c"), ("", "pkg/b")] rfl]
  rfl

/-- C9: the two solution kinds use two different encodings of integer
arg slots.  For a `NewSet` solution (`addDepsForNewSet` of both graph
builders) a slot `j` refers to `calls[j]` when `j < len calls` and to
the missing external type `missing[j - len calls]` otherwise; for a
`Build` solution (`addDepsForBuild`) it refers to the injector input
`ins[j]` when `j < len ins` and to `calls[j - len ins]` otherwise. -/
theorem argSlot_encodings :
    (∀ (ck : wcall → String) (calls : List wcall) (missing : List String)
       (j : Nat) (c : wcall), calls.get? j = some c →
         newSetArgTarget ck calls missing j = some (ck c)) ∧
    (∀ (ck : wcall → String) (calls : List wcall) (missing : List String)
       (j : Nat) (m : String), calls.length ≤ j →
         missing.get? (j - calls.length) = some m →
         newSetArgTarget ck calls missing j = some m) ∧
    (∀ (ck : wcall → String) (ins : List winput) (calls : List wcall)
       (j : Nat) (i : winput), ins.get? j = some i →
         buildArgTarget ck ins calls j = some (inputKey i)) ∧
    (∀ (ck : wcall → String) (ins : List winput) (calls : List wcall)
       (j : Nat) (c : wcall), ins.length ≤ j →
         calls.get? (j - ins.length) = some c →
         buildArgTarget ck ins calls j = some (ck c)) := by
  refine ⟨?_, ?_, ?_, ?_⟩
  · intro ck calls missing j c hc
    have hj : j < calls.length := (List.get?_eq_some.mp hc).1
    unfold newSetArgTarget
    rw [if_neg (Nat.not_le.mpr hj), hc]
    rfl
  · intro ck calls missing j m hj hm
    unfold newSetArgTarget
    rw [if_pos hj]
    exact hm
  · intro ck ins calls j i hi
    have hj : j < ins.length := (List.get?_eq_some.mp hi).1
    unfold buildArgTarget
    rw [if_pos hj, hi]
    rfl
  · intro ck ins calls j c hj hc
    unfold buildArgTarget
    rw [if_neg (Nat.not_lt.mpr hj), hc]
    rfl

theorem argSlot_encodings_witness :
    newSetArgTarget (fun _ => "call") [⟨[1]⟩] ["missing"] 0 = some "call" ∧
    newSetArgTarget (fun _ => "call") [⟨[1]⟩] ["missing"] 1 = some "missing" ∧
    buildArgTarget (fun _ => "call") [⟨"x", "int"⟩] [⟨[0]⟩] 0 =
      some ("x" ++ "#" ++ "int") ∧
    buildArgTarget (fun _ => "call") [⟨"x", "int"⟩] [⟨[0]⟩] 1 = some "call" := by
  refine ⟨?_, ?_, ?_, ?_⟩
  · exact argSlot_encodings.1 (fun _ => "call") [⟨[1]⟩] ["missing"] 0 ⟨[1]⟩ rfl
  · exact argSlot_encodings.2.1 (fun _ => "call") [⟨[1]⟩] ["missing"] 1
      "missing" (by decide) rfl
  · exact argSlot_encodings.2.2.1 (fun _ => "call") [⟨"x", "int"⟩] [⟨[0]⟩] 0
      ⟨"x", "int"⟩ rfl
  · exact argSlot_encodings.2.2.2 (fun _ => "call") [⟨"x", "int"⟩] [⟨[0]⟩] 1
      ⟨[0]⟩ (by decide) rfl

/-- C10: for every missing type whose string representation contains no
`#` character, `CytospaceBuilder.addInputsForNewSet` hits an
index-out-of-range panic (modelled as `none`), because it computes the
tooltip as `strings.Split(key, "#")[1]` on the bare type string. -/
theorem cytospace_inputs_panic_without_hash (missing : List String)
    (key : String) (hmem : key ∈ missing) (h : '#' ∉ key.data) :
    cytospaceAddInputsForNewSet missing = none := by
  apply mapMOpt_eq_none _ _ key hmem
  unfold cytospaceInputNodeForNewSet
  rw [splitHash_no_hash key.data h]
  rfl

theorem cytospace_inputs_panic_without_hash_witness :
    cytospaceAddInputsForNewSet ["int"] = none :=
  cytospace_inputs_panic_without_hash ["int"] "int" (by decide) (by decide)

end Wireplus

end EasyClaims

section SpecMinLemmas

namespace Wireplus

theorem foldl_congr_mem {α β : Type} (l : List α) (f g : β → α → β) (init : β)
    (h : ∀ b : β, ∀ a ∈ l, f b a = g b a) :
    l.foldl f init = l.foldl g init := by
  induction l generalizing init with
  | nil => rfl
  | cons a l ih =>
    rw [List.foldl_cons, List.foldl_cons, h init a (List.mem_cons_self a l)]
    exact ih _ (fun b a' ha' => h b a' (List.mem_cons_of_mem a ha'))

theorem rankOk_provider {set : ProviderSet} {r : TypeId → Nat}
    (hr : RankOk set r) {t : TypeId} {args : List TypeId}
    (hFor : set.For t = .isProvider args) :
    ∀ a ∈ args, r a < r t := by
  intro a ha
  have := hr t
  rw [hFor] at this
  exact this a ha

theorem rankOk_field {set : ProviderSet} {r : TypeId → Nat}
    (hr : RankOk set r) {t parent : TypeId}
    (hFor : set.For t = .isField parent) : r parent < r t := by
  have := hr t
  rw [hFor] at this
  exact this parent (by simp [deps])

theorem specMinInputs_stable (set : ProviderSet) (r : TypeId → Nat)
    (hr : RankOk set r) :
    ∀ n t, r t < n → specMinInputs set n t = minIn set r t := by
  intro n
  induction n using Nat.strong_induction_on with
  | _ n ih =>
  intro t ht
  cases n with
  | zero => omega
  | succ m =>
    have hm : r t ≤ m := Nat.lt_succ_iff.mp ht
    show specMinInputs set (m + 1) t = specMinInputs set (r t + 1) t
    cases hFor : set.For t with
    | isNil => simp [specMinInputs, hFor]
    | isArg => simp [specMinInputs, hFor]
    | isValue => simp [specMinInputs, hFor]
    | isProvider args =>
      simp only [specMinInputs, hFor]
      apply foldl_congr_mem
      intro acc a ha
      have hra : r a < r t := rankOk_provider hr hFor a ha
      rw [ih m (Nat.lt_succ_self m) a (lt_of_lt_of_le hra hm),
          ih (r t) ht a hra]
    | isField parent =>
      simp only [specMinInputs, hFor]
      have hrp : r parent < r t := rankOk_field hr hFor
      rw [ih m (Nat.lt_succ_self m) parent (lt_of_lt_of_le hrp hm),
          ih (r t) ht parent hrp]

theorem minIn_isNil {set : ProviderSet} {r : TypeId → Nat} {t : TypeId}
    (h : set.For t = .isNil) : minIn set r t = {t} := by
  simp [minIn, specMinInputs, h]

theorem minIn_isArg {set : ProviderSet} {r : TypeId → Nat} {t : TypeId}
    (h : set.For t = .isArg) : minIn set r t = {t} := by
  simp [minIn, specMinInputs, h]

theorem minIn_isValue {set : ProviderSet} {r : TypeId → Nat} {t : TypeId}
    (h : set.For t = .isValue) : minIn set r t = ∅ := by
  simp [minIn, specMinInputs, h]

theorem minIn_isProvider {set : ProviderSet} {r : TypeId → Nat}
    (hr : RankOk set r) {t : TypeId} {args : List TypeId}
    (h : set.For t = .isProvider args) :
    minIn set r t = args.foldl (fun acc a => acc ∪ minIn set r a) ∅ := by
  conv_lhs => rw [minIn]
  simp only [specMinInputs, h]
  apply foldl_congr_mem
  intro acc a ha
  rw [specMinInputs_stable set r hr (r t) a (rankOk_provider hr h a ha)]

theorem minIn_isField {set : ProviderSet} {r : TypeId → Nat}
    (hr : RankOk set r) {t parent : TypeId}
    (h : set.For t = .isField parent) :
    minIn set r t = minIn set r parent := by
  conv_lhs => rw [minIn]
  simp only [specMinInputs, h]
  exact specMinInputs_stable set r hr (r t) parent (rankOk_field hr h)

end Wireplus

end SpecMinLemmas

section InvariantLemmas

namespace Wireplus

theorem updFn_same (f : TypeId → Option VMark) (a : TypeId) (v : Option VMark) :
    updFn f a v a = v := by
  simp [updFn]

theorem updFn_ne (f : TypeId → Option VMark) (a : TypeId) (v : Option VMark)
    (x : TypeId) (h : x ≠ a) : updFn f a v x = f x := by
  simp [updFn, h]

theorem inputs_getD_addOutputAt (l : List outGroup) (i j : Nat) (t : TypeId) :
    ((addOutputAt l i t).getD j default).inputs = (l.getD j default).inputs := by
  induction l generalizing i j with
  | nil => rfl
  | cons g gs ih =>
    cases i with
    | zero =>
      cases j with
      | zero => rfl
      | succ j => rfl
    | succ i =>
      cases j with
      | zero => rfl
      | succ j => simpa [addOutputAt] using ih i j

theorem Inv.setStk {r : TypeId → Nat} {st : ProviderSet} {stk stk' : List TypeId}
    {v : TypeId → Option VMark} {gs : List outGroup}
    (h : Inv r ⟨st, stk, v, gs⟩) : Inv r ⟨st, stk', v, gs⟩ :=
  ⟨h.grpLt, h.inpOk, h.grpOk, h.memOk, h.distinct⟩

theorem Inv.markInput {r : TypeId → Nat} {s : GatherState} (h : Inv r s)
    {curr : TypeId} (hv : s.inputVisited curr = none)
    (hFor : s.set.For curr = .isNil ∨ s.set.For curr = .isArg)
    (rest : List TypeId) :
    Inv r { s with stk := rest,
                   inputVisited := updFn s.inputVisited curr (some .input) } := by
  refine ⟨?_, ?_, ?_, ?_, ?_⟩ <;> dsimp only
  · intro t i ht
    by_cases hteq : t = curr
    · subst hteq; rw [updFn_same] at ht; simp at ht
    · rw [updFn_ne _ _ _ _ hteq] at ht
      exact h.grpLt t i ht
  · intro t ht
    by_cases hteq : t = curr
    · subst hteq; exact hFor
    · rw [updFn_ne _ _ _ _ hteq] at ht
      exact h.inpOk t ht
  · intro t i ht
    by_cases hteq : t = curr
    · subst hteq; rw [updFn_same] at ht; simp at ht
    · rw [updFn_ne _ _ _ _ hteq] at ht
      exact h.grpOk t i ht
  · intro i hi t htmem
    have hvt := h.memOk i hi t htmem
    have htne : t ≠ curr := fun hh => by rw [hh, hv] at hvt; cases hvt
    rw [updFn_ne _ _ _ _ htne]
    exact hvt
  · exact h.distinct

theorem Inv.markExisting {r : TypeId → Nat} {s : GatherState} (h : Inv r s)
    {curr : TypeId} {i : Nat}
    (hv : s.inputVisited curr = none)
    (hi : i < s.groups.length)
    (hinp : (s.groups.getD i default).inputs = minIn s.set r curr)
    (rest : List TypeId) :
    Inv r { s with stk := rest,
                   inputVisited := updFn s.inputVisited curr (some (.group i)),
                   groups := addOutputAt s.groups i curr } := by
  have hlen : (addOutputAt s.groups i curr).length = s.groups.length :=
    length_addOutputAt _ _ _
  refine ⟨?_, ?_, ?_, ?_, ?_⟩ <;> dsimp only
  · intro t j ht
    by_cases hteq : t = curr
    · subst hteq; rw [updFn_same] at ht
      simp only [Option.some.injEq, VMark.group.injEq] at ht
      rw [hlen]; omega
    · rw [updFn_ne _ _ _ _ hteq] at ht
      rw [hlen]; exact h.grpLt t j ht
  · intro t ht
    by_cases hteq : t = curr
    · subst hteq; rw [updFn_same] at ht; simp at ht
    · rw [updFn_ne _ _ _ _ hteq] at ht
      exact h.inpOk t ht
  · intro t j ht
    by_cases hteq : t = curr
    · subst hteq; rw [updFn_same] at ht
      simp only [Option.some.injEq, VMark.group.injEq] at ht
      subst ht
      rw [getD_addOutputAt_eq _ _ _ hi]
      exact ⟨hinp, Finset.mem_insert_self _ _⟩
    · rw [updFn_ne _ _ _ _ hteq] at ht
      obtain ⟨h1, h2⟩ := h.grpOk t j ht
      by_cases hji : j = i
      · subst hji
        rw [getD_addOutputAt_eq _ _ _ hi]
        exact ⟨h1, Finset.mem_insert_of_mem h2⟩
      · rw [getD_addOutputAt_ne _ _ _ _ hji]
        exact ⟨h1, h2⟩
  · intro j hj t htmem
    rw [hlen] at hj
    by_cases hji : j = i
    · subst hji
      rw [getD_addOutputAt_eq _ _ _ hi] at htmem
      rcases Finset.mem_insert.mp htmem with rfl | htmem
      · rw [updFn_same]
      · have hvt := h.memOk j hj t htmem
        have htne : t ≠ curr := fun hh => by rw [hh, hv] at hvt; cases hvt
        rw [updFn_ne _ _ _ _ htne]
        exact hvt
    · rw [getD_addOutputAt_ne _ _ _ _ hji] at htmem
      have hvt := h.memOk j hj t htmem
      have htne : t ≠ curr := fun hh => by rw [hh, hv] at hvt; cases hvt
      rw [updFn_ne _ _ _ _ htne]
      exact hvt
  · intro j k hj hk hjk
    rw [hlen] at hj hk
    rw [inputs_getD_addOutputAt, inputs_getD_addOutputAt]
    exact h.distinct j k hj hk hjk

theorem Inv.markNew {r : TypeId → Nat} {s : GatherState} (h : Inv r s)
    {curr : TypeId} {inSet : Finset TypeId}
    (hv : s.inputVisited curr = none)
    (hinSet : inSet = minIn s.set r curr)
    (hdiff : ∀ j, j < s.groups.length → (s.groups.getD j default).inputs ≠ inSet)
    (rest : List TypeId) :
    Inv r { s with stk := rest,
                   inputVisited := updFn s.inputVisited curr (some (.group s.groups.length)),
                   groups := s.groups ++ [⟨"", inSet, {curr}⟩] } := by
  have hlen : (s.groups ++ [(⟨"", inSet, {curr}⟩ : outGroup)]).length
      = s.groups.length + 1 := by simp
  refine ⟨?_, ?_, ?_, ?_, ?_⟩ <;> dsimp only
  · intro t j ht
    by_cases hteq : t = curr
    · subst hteq; rw [updFn_same] at ht
      simp only [Option.some.injEq, VMark.group.injEq] at ht
      rw [hlen]; omega
    · rw [updFn_ne _ _ _ _ hteq] at ht
      have := h.grpLt t j ht
      rw [hlen]; omega
  · intro t ht
    by_cases hteq : t = curr
    · subst hteq; rw [updFn_same] at ht; simp at ht
    · rw [updFn_ne _ _ _ _ hteq] at ht
      exact h.inpOk t ht
  · intro t j ht
    by_cases hteq : t = curr
    · subst hteq; rw [updFn_same] at ht
      simp only [Option.some.injEq, VMark.group.injEq] at ht
      rw [← ht, getD_append_len]
      exact ⟨hinSet, Finset.mem_singleton_self _⟩
    · rw [updFn_ne _ _ _ _ hteq] at ht
      obtain ⟨h1, h2⟩ := h.grpOk t j ht
      have hjlt := h.grpLt t j ht
      rw [getD_append_lt _ _ _ hjlt]
      exact ⟨h1, h2⟩
  · intro j hj t htmem
    rw [hlen] at hj
    rcases Nat.lt_or_ge j s.groups.length with hjl | hjg
    · rw [getD_append_lt _ _ _ hjl] at htmem
      have hvt := h.memOk j hjl t htmem
      have htne : t ≠ curr := fun hh => by rw [hh, hv] at hvt; cases hvt
      rw [updFn_ne _ _ _ _ htne]
      exact hvt
    · have hj' : j = s.groups.length := by omega
      subst hj'
      rw [getD_append_len] at htmem
      have ht : t = curr := Finset.mem_singleton.mp htmem
      subst ht
      rw [updFn_same]
  · intro j k hj hk hjk
    rw [hlen] at hj hk
    rcases Nat.lt_or_ge j s.groups.length with hjl | hjg <;>
      rcases Nat.lt_or_ge k s.groups.length with hkl | hkg
    · rw [getD_append_lt _ _ _ hjl, getD_append_lt _ _ _ hkl]
      exact h.distinct j k hjl hkl hjk
    · have hk' : k = s.groups.length := by omega
      subst hk'
      rw [getD_append_lt _ _ _ hjl, getD_append_len]
      exact hdiff j hjl
    · have hj' : j = s.groups.length := by omega
      subst hj'
      rw [getD_append_lt _ _ _ hkl, getD_append_len]
      exact fun hh => hdiff k hkl hh.symm
    · omega

theorem argInputs_eq_minIn {st : ProviderSet} {r : TypeId → Nat}
    (hr : RankOk st r) {v : TypeId → Option VMark} {gs : List outGroup}
    {curr : TypeId} {args : List TypeId}
    (hFor : st.For curr = .isProvider args)
    (hvis : ∀ a ∈ args, (v a).isSome)
    (hinp : ∀ a ∈ args, v a = some .input → st.For a = .isNil ∨ st.For a = .isArg)
    (hgrp : ∀ a ∈ args, ∀ i, v a = some (.group i) →
              (gs.getD i default).inputs = minIn st r a) :
    argInputs v gs args = minIn st r curr := by
  rw [minIn_isProvider hr hFor]
  unfold argInputs
  apply foldl_congr_mem
  intro acc a ha
  cases hva : v a with
  | none => exact absurd (hvis a ha) (by rw [hva]; simp)
  | some m =>
    cases m with
    | input =>
      show insert a acc = acc ∪ minIn st r a
      rcases hinp a ha hva with hn | hn
      · rw [minIn_isNil hn, Finset.insert_eq, Finset.union_comm]
      · rw [minIn_isArg hn, Finset.insert_eq, Finset.union_comm]
    | group i =>
      show mergeTypeSets acc ((gs.getD i default).inputs) = acc ∪ minIn st r a
      rw [hgrp a ha i hva]
      rfl

theorem classify_Inv {r : TypeId → Nat} {s : GatherState} (h : Inv r s)
    {curr : TypeId} {inSet : Finset TypeId}
    (hv : s.inputVisited curr = none)
    (hinSet : inSet = minIn s.set r curr)
    (rest : List TypeId) :
    Inv r (classify s curr rest inSet) := by
  unfold classify
  cases hf : findGroup (fun g => sameTypeKeys g.inputs inSet) s.groups with
  | some i =>
    obtain ⟨hi, hp⟩ := findGroup_some hf
    have heq : (s.groups.getD i default).inputs = inSet := (sameTypeKeys_iff _ _).mp hp
    exact h.markExisting hv hi (heq.trans hinSet) rest
  | none =>
    apply h.markNew hv hinSet
    intro j hj heq
    have hj' := findGroup_none hf j hj
    rw [(sameTypeKeys_iff _ _).mpr heq] at hj'
    cases hj'

theorem step_preserves_Inv {r : TypeId → Nat} {s : GatherState}
    (hr : RankOk s.set r) (h : Inv r s) : Inv r (step s) := by
  obtain ⟨st, stk, v, gs⟩ := s
  cases stk with
  | nil => exact h
  | cons curr rest =>
    show Inv r (step ⟨st, curr :: rest, v, gs⟩)
    unfold step
    dsimp only
    by_cases hvc : (v curr).isSome
    · rw [if_pos hvc]
      exact h.setStk
    · rw [if_neg hvc]
      have hv : v curr = none := Option.not_isSome_iff_eq_none.mp hvc
      cases hFor : st.For curr with
      | isNil => exact h.markInput hv (Or.inl hFor) rest
      | isArg => exact h.markInput hv (Or.inr hFor) rest
      | isProvider args =>
        dsimp only
        by_cases hu : (args.filter (fun a => (v a).isNone)).isEmpty
        · rw [if_pos hu]
          apply classify_Inv h hv
          have hall : ∀ a ∈ args, (v a).isSome := by
            intro a ha
            have hne := List.isEmpty_iff.mp hu
            rw [Option.isSome_iff_ne_none]
            intro hnone
            have hmem : a ∈ List.filter (fun a => (v a).isNone) args :=
              List.mem_filter.mpr ⟨ha, by simp [hnone]⟩
            rw [hne] at hmem
            simp at hmem
          exact argInputs_eq_minIn hr hFor hall
            (fun a _ hva => h.inpOk a hva)
            (fun a _ i hva => (h.grpOk a i hva).1)
        · rw [if_neg hu]
          exact h.setStk
      | isValue =>
        dsimp only
        cases hf : findGroup (fun g => decide (g.inputs.card = 0)) gs with
        | some i =>
          obtain ⟨hi, hp⟩ := findGroup_some hf
          have hempty : (gs.getD i default).inputs = ∅ :=
            Finset.card_eq_zero.mp (by simpa using hp)
          exact h.markExisting hv hi
            (by show (gs.getD i default).inputs = minIn st r curr
                rw [hempty, minIn_isValue hFor]) rest
        | none =>
          apply h.markNew hv (minIn_isValue hFor).symm
          intro j hj heq
          dsimp only at hj heq
          have hj' := findGroup_none hf j hj
          rw [heq] at hj'
          simp at hj'
      | isField parent =>
        dsimp only
        by_cases hp : (v parent).isNone
        · rw [if_pos hp]
          exact h.setStk
        · rw [if_neg hp]
          apply classify_Inv h hv
          show fieldInputs ⟨st, curr :: rest, v, gs⟩ parent = minIn st r curr
          unfold fieldInputs
          dsimp only
          cases hvp : v parent with
          | none => exact absurd (by rw [hvp]; rfl) hp
          | some m =>
            cases m with
            | input =>
              show ({parent} : Finset TypeId) = minIn st r curr
              rw [minIn_isField hr hFor]
              rcases h.inpOk parent hvp with hn | hn
              · rw [minIn_isNil hn]
              · rw [minIn_isArg hn]
            | group i =>
              show mergeTypeSets ∅ ((gs.getD i default).inputs) = minIn st r curr
              rw [minIn_isField hr hFor]
              have := (h.grpOk parent i hvp).1
              show ∅ ∪ (gs.getD i default).inputs = minIn st r parent
              rw [Finset.empty_union]
              exact this

theorem Inv.setStkAny {r : TypeId → Nat} {s : GatherState} (h : Inv r s)
    (l : List TypeId) : Inv r { s with stk := l } :=
  ⟨h.grpLt, h.inpOk, h.grpOk, h.memOk, h.distinct⟩

/-- Shape analysis of one DFS iteration on a nonempty stack: either the
top is freshly marked and popped, or it was already visited and popped
unchanged, or a nonempty list of its unvisited dependencies is pushed
above it. -/
theorem step_shape (st : ProviderSet) (curr : TypeId) (rest : List TypeId)
    (v : TypeId → Option VMark) (gs : List outGroup) :
    (∃ m gs', v curr = none ∧
        step ⟨st, curr :: rest, v, gs⟩ = ⟨st, rest, updFn v curr (some m), gs'⟩) ∨
    ((v curr).isSome ∧ step ⟨st, curr :: rest, v, gs⟩ = ⟨st, rest, v, gs⟩) ∨
    (∃ L, L ≠ [] ∧ (∀ a ∈ L, a ∈ deps (st.For curr) ∧ v a = none) ∧ v curr = none ∧
        step ⟨st, curr :: rest, v, gs⟩ = ⟨st, L ++ curr :: rest, v, gs⟩) := by
  unfold step
  dsimp only
  by_cases hvc : (v curr).isSome
  · rw [if_pos hvc]
    exact Or.inr (Or.inl ⟨hvc, rfl⟩)
  · rw [if_neg hvc]
    have hv : v curr = none := Option.not_isSome_iff_eq_none.mp hvc
    cases hFor : st.For curr with
    | isNil => exact Or.inl ⟨.input, gs, hv, rfl⟩
    | isArg => exact Or.inl ⟨.input, gs, hv, rfl⟩
    | isProvider args =>
      dsimp only
      by_cases hu : (args.filter (fun a => (v a).isNone)).isEmpty
      · rw [if_pos hu]
        unfold classify
        cases findGroup (fun g => sameTypeKeys g.inputs
            (argInputs v gs args)) gs with
        | some i => exact Or.inl ⟨.group i, addOutputAt gs i curr, hv, rfl⟩
        | none =>
          exact Or.inl ⟨.group gs.length,
            gs ++ [⟨"", argInputs v gs args, {curr}⟩], hv, rfl⟩
      · rw [if_neg hu]
        refine Or.inr (Or.inr ⟨(args.filter (fun a => (v a).isNone)).reverse,
          ?_, ?_, hv, rfl⟩)
        · intro hnil
          exact hu (by
            rw [List.isEmpty_iff]
            have := congrArg List.reverse hnil
            simpa using this)
        · intro a ha
          rw [List.mem_reverse] at ha
          obtain ⟨hmem, hnone⟩ := List.mem_filter.mp ha
          refine ⟨hmem, ?_⟩
          simpa using hnone
    | isValue =>
      dsimp only
      cases findGroup (fun g => decide (g.inputs.card = 0)) gs with
      | some i => exact Or.inl ⟨.group i, addOutputAt gs i curr, hv, rfl⟩
      | none => exact Or.inl ⟨.group gs.length, gs ++ [⟨"", ∅, {curr}⟩], hv, rfl⟩
    | isField parent =>
      dsimp only
      by_cases hp : (v parent).isNone
      · rw [if_pos hp]
        refine Or.inr (Or.inr ⟨[parent], (by simp), ?_, hv, rfl⟩)
        intro a ha
        rw [List.mem_singleton] at ha
        subst ha
        exact ⟨(by simp [deps]), (by simpa using hp)⟩
      · rw [if_neg hp]
        unfold classify
        cases findGroup (fun g => sameTypeKeys g.inputs
            (fieldInputs ⟨st, curr :: rest, v, gs⟩ parent)) gs with
        | some i => exact Or.inl ⟨.group i, addOutputAt gs i curr, hv, rfl⟩
        | none =>
          exact Or.inl ⟨.group gs.length,
            gs ++ [⟨"", fieldInputs ⟨st, curr :: rest, v, gs⟩ parent, {curr}⟩],
            hv, rfl⟩

theorem step_set (s : GatherState) : (step s).set = s.set := by
  obtain ⟨st, stk, v, gs⟩ := s
  cases stk with
  | nil => rfl
  | cons curr rest =>
    rcases step_shape st curr rest v gs with ⟨m, gs', _, heq⟩ | ⟨_, heq⟩ |
      ⟨L, _, _, _, heq⟩ <;> rw [heq]

theorem step_vExt (s : GatherState) :
    vExt s.inputVisited (step s).inputVisited := by
  obtain ⟨st, stk, v, gs⟩ := s
  cases stk with
  | nil => exact fun t m ht => ht
  | cons curr rest =>
    rcases step_shape st curr rest v gs with ⟨m, gs', hv, heq⟩ | ⟨_, heq⟩ |
      ⟨L, _, _, _, heq⟩
    · rw [heq]
      intro t m' ht
      dsimp only at ht
      have htne : t ≠ curr := fun hh => by rw [hh, hv] at ht; cases ht
      show updFn v curr (some m) t = some m'
      rw [updFn_ne _ _ _ _ htne]
      exact ht
    · rw [heq]; exact fun t m ht => ht
    · rw [heq]; exact fun t m ht => ht

theorem vExt_trans {u v w : TypeId → Option VMark}
    (h1 : vExt u v) (h2 : vExt v w) : vExt u w :=
  fun t m ht => h2 t m (h1 t m ht)

theorem drain_set (n : Nat) (s s' : GatherState) (h : drain n s = some s') :
    s'.set = s.set := by
  induction n generalizing s with
  | zero =>
    unfold drain at h
    split at h
    · cases h; rfl
    · cases h
  | succ n ih =>
    unfold drain at h
    split at h
    · cases h; rfl
    · rw [ih (step s) h, step_set]

theorem drain_vExt (n : Nat) (s s' : GatherState) (h : drain n s = some s') :
    vExt s.inputVisited s'.inputVisited := by
  induction n generalizing s with
  | zero =>
    unfold drain at h
    split at h
    · cases h; exact fun t m ht => ht
    · cases h
  | succ n ih =>
    unfold drain at h
    split at h
    · cases h; exact fun t m ht => ht
    · exact vExt_trans (step_vExt s) (ih (step s) h)

theorem drain_stk_visited (n : Nat) (s s' : GatherState)
    (h : drain n s = some s') :
    ∀ t ∈ s.stk, (s'.inputVisited t).isSome := by
  induction n generalizing s with
  | zero =>
    unfold drain at h
    split at h
    · cases h
      intro t ht
      rename_i hemp
      rw [List.isEmpty_iff.mp hemp] at ht
      cases ht
    · cases h
  | succ n ih =>
    unfold drain at h
    split at h
    · cases h
      intro t ht
      rename_i hemp
      rw [List.isEmpty_iff.mp hemp] at ht
      cases ht
    · intro t ht
      obtain ⟨st, stk, v, gs⟩ := s
      rename_i hemp
      cases stk with
      | nil => simp [List.isEmpty_iff] at hemp
      | cons curr rest =>
        have hvE := drain_vExt n _ _ h
        rcases step_shape st curr rest v gs with ⟨m, gs', hv, heq⟩ | ⟨hvs, heq⟩ |
          ⟨L, _, _, _, heq⟩
        · rcases List.mem_cons.mp ht with rfl | ht
          · rw [heq] at hvE
            have : s'.inputVisited t = some m :=
              hvE t m (by dsimp only; rw [updFn_same])
            rw [this]; rfl
          · exact ih (step ⟨st, curr :: rest, v, gs⟩) h t (by rw [heq]; exact ht)
        · rcases List.mem_cons.mp ht with rfl | ht
          · obtain ⟨m, hm⟩ := Option.isSome_iff_exists.mp hvs
            rw [heq] at hvE
            have : s'.inputVisited t = some m := hvE t m hm
            rw [this]; rfl
          · exact ih (step ⟨st, curr :: rest, v, gs⟩) h t (by rw [heq]; exact ht)
        · refine ih (step ⟨st, curr :: rest, v, gs⟩) h t ?_
          rw [heq]
          exact List.mem_append_right L ht

theorem pushOutput_set (s : GatherState) (k : TypeId) :
    (pushOutput s k).set = s.set := by
  unfold pushOutput
  split <;> rfl

theorem pushOutput_inputVisited (s : GatherState) (k : TypeId) :
    (pushOutput s k).inputVisited = s.inputVisited := by
  unfold pushOutput
  split <;> rfl

theorem pushOutput_Inv {r : TypeId → Nat} {s : GatherState} (h : Inv r s)
    (k : TypeId) : Inv r (pushOutput s k) := by
  unfold pushOutput
  split
  · exact h.setStkAny _
  · exact h

theorem drain_Inv {r : TypeId → Nat} (n : Nat) (s s' : GatherState)
    (hr : RankOk s.set r) (hInv : Inv r s) (h : drain n s = some s') :
    Inv r s' := by
  induction n generalizing s with
  | zero =>
    unfold drain at h
    split at h
    · cases h; exact hInv
    · cases h
  | succ n ih =>
    unfold drain at h
    split at h
    · cases h; exact hInv
    · exact ih (step s) (by rw [step_set]; exact hr) (step_preserves_Inv hr hInv) h

theorem gatherStart_Inv (set : ProviderSet) (r : TypeId → Nat) :
    Inv r (gatherStart set) := by
  refine ⟨?_, ?_, ?_, ?_, ?_⟩ <;> dsimp only [gatherStart]
  · intro t i ht; cases ht
  · intro t ht; cases ht
  · intro t i ht; cases ht
  · intro i hi; cases hi
  · intro i j hi; cases hi

theorem foldDrain_Inv {r : TypeId → Nat} (set : ProviderSet) (fuel : Nat)
    (hr : RankOk set r) :
    ∀ (outs : List TypeId) (s s' : GatherState), s.set = set → Inv r s →
      outs.foldlM (fun s k => drain fuel (pushOutput s k)) s = some s' →
      Inv r s' ∧ s'.set = set := by
  intro outs
  induction outs with
  | nil =>
    intro s s' hset hInv h
    simp only [List.foldlM_nil, Option.pure_def, Option.some.injEq] at h
    subst h
    exact ⟨hInv, hset⟩
  | cons k ks ih =>
    intro s s' hset hInv h
    rw [List.foldlM_cons] at h
    cases hd : drain fuel (pushOutput s k) with
    | none => rw [hd] at h; cases h
    | some s1 =>
      rw [hd] at h
      simp only [Option.bind_eq_bind, Option.some_bind] at h
      have hset1 : s1.set = set := by
        rw [drain_set _ _ _ hd, pushOutput_set, hset]
      have hInv1 : Inv r s1 :=
        drain_Inv fuel _ _ (by rw [pushOutput_set, hset]; exact hr)
          (pushOutput_Inv hInv k) hd
      exact ih s1 s' hset1 hInv1 h

theorem foldDrain_visits (fuel : Nat) :
    ∀ (outs : List TypeId) (s s' : GatherState),
      outs.foldlM (fun s k => drain fuel (pushOutput s k)) s = some s' →
      (∀ k ∈ outs, (s'.inputVisited k).isSome) ∧
      vExt s.inputVisited s'.inputVisited := by
  intro outs
  induction outs with
  | nil =>
    intro s s' h
    simp only [List.foldlM_nil, Option.pure_def, Option.some.injEq] at h
    subst h
    exact ⟨(by intro k hk; cases hk), fun t m ht => ht⟩
  | cons k ks ih =>
    intro s s' h
    rw [List.foldlM_cons] at h
    cases hd : drain fuel (pushOutput s k) with
    | none => rw [hd] at h; cases h
    | some s1 =>
      rw [hd] at h
      simp only [Option.bind_eq_bind, Option.some_bind] at h
      obtain ⟨hks, hvE⟩ := ih s1 s' h
      have hvE1 : vExt s.inputVisited s1.inputVisited := by
        have := drain_vExt fuel _ _ hd
        rw [pushOutput_inputVisited] at this
        exact this
      refine ⟨?_, vExt_trans hvE1 hvE⟩
      intro k' hk'
      rcases List.mem_cons.mp hk' with rfl | hk'
      · by_cases hvk : (s.inputVisited k').isNone
        · have hstk : k' ∈ (pushOutput s k').stk := by
            unfold pushOutput
            rw [if_pos hvk]
            exact List.mem_cons_self _ _
          have h1 : (s1.inputVisited k').isSome :=
            drain_stk_visited fuel _ _ hd k' hstk
          obtain ⟨m, hm⟩ := Option.isSome_iff_exists.mp h1
          rw [hvE k' m hm]; rfl
        · have h0 : (s.inputVisited k').isSome := by
            cases hval : s.inputVisited k'
            · exact absurd (by rw [hval]; rfl) hvk
            · rfl
          obtain ⟨m, hm⟩ := Option.isSome_iff_exists.mp h0
          rw [vExt_trans hvE1 hvE k' m hm]; rfl
      · exact hks k' hk'

end Wireplus

end InvariantLemmas

section ClaimC1

namespace Wireplus

theorem nameGroup_inputs (ts : TypeId → String) (g : outGroup) :
    (nameGroup ts g).inputs = g.inputs := by
  unfold nameGroup
  split <;> rfl

theorem nameGroup_outputs (ts : TypeId → String) (g : outGroup) :
    (nameGroup ts g).outputs = g.outputs := by
  unfold nameGroup
  split <;> rfl

theorem mem_sortGroups {g : outGroup} {l : List outGroup} :
    g ∈ sortGroups l ↔ g ∈ l :=
  (List.perm_insertionSort groupRel l).mem_iff

theorem accRank_ok : RankOk accSet accRank := by
  intro t a ha
  unfold accSet at ha
  dsimp only at ha
  by_cases h0 : t = 0
  · subst h0
    simp [deps] at ha
    rcases ha with rfl | rfl <;> decide
  · by_cases h2 : t = 2
    · subst h2
      simp [deps] at ha
    · by_cases h3 : t = 3
      · subst h3
        simp [deps] at ha
        subst ha
        decide
      · simp [h0, h2, h3, deps] at ha

/-- Everything the DFS invariant yields about a completed `gather` run:
each group's inputs are the minimal input set of each of its members,
every bound requested output is grouped, distinct groups have distinct
input sets, every group is named from its own input set, and the
sequence is sorted by the `sort.Slice` comparator. -/
theorem gather_groups_spec (set : ProviderSet)
    (r : TypeId → Nat) (fuel : Nat) (gl : List outGroup)
    (hr : RankOk set r) (hg : gather set fuel = some gl) :
    (∀ g ∈ gl, ∀ t ∈ g.outputs, g.inputs = minIn set r t) ∧
    (∀ k ∈ set.outputs, set.For k ≠ .isNil → set.For k ≠ .isArg →
      ∃ g ∈ gl, k ∈ g.outputs) ∧
    gl.Pairwise (fun a b => a.inputs ≠ b.inputs) ∧
    (∀ g ∈ gl, g.name = if g.inputs.card = 0 then "no inputs"
      else joinComma (sortStrings ((finsetAscList g.inputs).map set.typeStr))) ∧
    gl.Sorted groupRel := by
  unfold gather at hg
  obtain ⟨s', hs', hgl⟩ := Option.map_eq_some'.mp hg
  unfold gatherLoop at hs'
  obtain ⟨hInv, hset⟩ := foldDrain_Inv set fuel hr set.outputs (gatherStart set)
    s' rfl (gatherStart_Inv set r) hs'
  obtain ⟨hvisit, _⟩ := foldDrain_visits fuel set.outputs (gatherStart set) s' hs'
  subst hgl
  refine ⟨?_, ?_, ?_, ?_, ?_⟩
  · intro g hgmem t htmem
    rw [mem_sortGroups] at hgmem
    obtain ⟨g0, hg0, rfl⟩ := List.mem_map.mp hgmem
    rw [nameGroup_outputs] at htmem
    rw [nameGroup_inputs]
    obtain ⟨i, hi, hgetD⟩ := mem_iff_getD.mp hg0
    have hvt : s'.inputVisited t = some (.group i) :=
      hInv.memOk i hi t (by rw [hgetD]; exact htmem)
    have hmin := (hInv.grpOk t i hvt).1
    rw [hset] at hmin
    rw [hgetD] at hmin
    exact hmin
  · intro k hk hnil harg
    obtain ⟨m, hm⟩ := Option.isSome_iff_exists.mp (hvisit k hk)
    cases m with
    | input =>
      rcases hInv.inpOk k hm with h1 | h1 <;> rw [hset] at h1
      · exact absurd h1 hnil
      · exact absurd h1 harg
    | group i =>
      have hgOk := hInv.grpOk k i hm
      have hilt := hInv.grpLt k i hm
      refine ⟨nameGroup set.typeStr (s'.groups.getD i default), ?_, ?_⟩
      · rw [mem_sortGroups]
        exact List.mem_map.mpr ⟨_, mem_of_getD hilt, rfl⟩
      · rw [nameGroup_outputs]
        exact hgOk.2
  · have hpw : s'.groups.Pairwise (fun a b => a.inputs ≠ b.inputs) := by
      rw [List.pairwise_iff_getElem]
      intro i j hi hj hij
      have hd := hInv.distinct i j hi hj (Nat.ne_of_lt hij)
      rwa [List.getD_eq_getElem _ _ hi, List.getD_eq_getElem _ _ hj] at hd
    have hpw2 : (s'.groups.map (nameGroup set.typeStr)).Pairwise
        (fun a b => a.inputs ≠ b.inputs) := by
      rw [List.pairwise_map]
      refine hpw.imp ?_
      intro a b hab
      rw [nameGroup_inputs, nameGroup_inputs]
      exact hab
    have hsym : Symmetric (fun a b : outGroup => a.inputs ≠ b.inputs) :=
      fun a b hab => fun hh => hab hh.symm
    exact ((List.perm_insertionSort groupRel _).pairwise_iff
      (fun hab => hsym hab)).mpr hpw2
  · intro g hgmem
    rw [mem_sortGroups] at hgmem
    obtain ⟨g0, _, rfl⟩ := List.mem_map.mp hgmem
    rw [nameGroup_inputs]
    unfold nameGroup
    split
    · rfl
    · rfl
  · exact List.sorted_insertionSort groupRel _

/-- C1: for every provider set with an acyclic dependency graph (given
by a rank function) on which the DFS completes, the grouper `gather`
assigns every grouped output type exactly its minimal required-input
set, computed by the recursion of `specMinInputs`: a type with no
binding (an external input or injector argument) contributes itself, a
`ValueLiteral` contributes the empty set, and every other provider
contributes the union of the minimal sets of its args; moreover, every
requested output that has a binding appears in some group. -/
theorem gather_computes_minimal_input_sets (set : ProviderSet)
    (r : TypeId → Nat) (fuel : Nat) (gl : List outGroup)
    (hr : RankOk set r) (hg : gather set fuel = some gl) :
    (∀ g ∈ gl, ∀ t ∈ g.outputs, g.inputs = minIn set r t) ∧
    (∀ k ∈ set.outputs, set.For k ≠ .isNil → set.For k ≠ .isArg →
      ∃ g ∈ gl, k ∈ g.outputs) := by
  obtain ⟨h1, h2, _⟩ := gather_groups_spec set r fuel gl hr hg
  exact ⟨h1, h2⟩

/-- Witness for C1: the grouper on the concrete acyclic scope `accSet`
produces `accGl`, whose groups carry exactly the minimal input sets. -/
theorem gather_computes_minimal_input_sets_witness :
    RankOk accSet accRank ∧ gather accSet 20 = some accGl ∧
    (∀ g ∈ accGl, ∀ t ∈ g.outputs, g.inputs = minIn accSet accRank t) := by
  have hg : gather accSet 20 = some accGl := resEqb_sound (by rfl)
  exact ⟨accRank_ok, hg,
    (gather_computes_minimal_input_sets accSet accRank 20 accGl accRank_ok hg).1⟩

end Wireplus

end ClaimC1

section ClaimsC2C3C5C6C7

namespace Wireplus

theorem groupRel_iff (a b : outGroup) :
    groupRel a b ↔ (a.inputs.card < b.inputs.card ∨
      (a.inputs.card = b.inputs.card ∧ a.name ≤ b.name)) := by
  unfold groupRel groupLess
  by_cases h : b.inputs.card = a.inputs.card
  · rw [if_pos h, decide_eq_false_iff_not, not_lt]
    constructor
    · intro hle; exact Or.inr ⟨h.symm, hle⟩
    · rintro (hlt | ⟨_, hle⟩)
      · omega
      · exact hle
  · rw [if_neg h, decide_eq_false_iff_not, not_lt]
    constructor
    · intro hle; exact Or.inl (lt_of_le_of_ne hle (fun hh => h hh.symm))
    · rintro (hlt | ⟨heq, _⟩)
      · exact le_of_lt hlt
      · exact absurd heq.symm h

/-- C2: for every provider set with an acyclic dependency graph on
which the DFS completes, `gather` places two outputs in the same
cluster exactly when their minimal required-input sets are set-equal
(`sameTypeKeys`, shown equivalent to set equality in
`sameTypeKeys_iff`), and the returned cluster sequence is ordered by
ascending input-set size, breaking ties by ascending label. -/
theorem gather_same_cluster_iff_sorted (set : ProviderSet) (r : TypeId → Nat)
    (fuel : Nat) (gl : List outGroup) (hr : RankOk set r)
    (hg : gather set fuel = some gl) :
    (∀ g1 ∈ gl, ∀ g2 ∈ gl, ∀ t1 ∈ g1.outputs, ∀ t2 ∈ g2.outputs,
        (g1 = g2 ↔ minIn set r t1 = minIn set r t2)) ∧
    gl.Pairwise (fun a b => a.inputs.card < b.inputs.card ∨
        (a.inputs.card = b.inputs.card ∧ a.name ≤ b.name)) := by
  obtain ⟨h1, _, h3, _, h5⟩ := gather_groups_spec set r fuel gl hr hg
  constructor
  · intro g1 hg1 g2 hg2 t1 ht1 t2 ht2
    constructor
    · rintro rfl
      rw [← h1 g1 hg1 t1 ht1, ← h1 g1 hg1 t2 ht2]
    · intro hmin
      by_contra hne
      have hsym : Symmetric (fun a b : outGroup => a.inputs ≠ b.inputs) :=
        fun a b hab => fun hh => hab hh.symm
      have hd := h3.forall hsym hg1 hg2 hne
      apply hd
      rw [h1 g1 hg1 t1 ht1, h1 g2 hg2 t2 ht2]
      exact hmin
  · exact h5.imp (fun hab => (groupRel_iff _ _).mp hab)

/-- Witness for C2 on the concrete scope `accSet`. -/
theorem gather_same_cluster_iff_sorted_witness :
    RankOk accSet accRank ∧ gather accSet 20 = some accGl ∧
    accGl.Pairwise (fun a b => a.inputs.card < b.inputs.card ∨
        (a.inputs.card = b.inputs.card ∧ a.name ≤ b.name)) := by
  have hg : gather accSet 20 = some accGl := resEqb_sound (by rfl)
  exact ⟨accRank_ok, hg,
    (gather_same_cluster_iff_sorted accSet accRank 20 accGl accRank_ok hg).2⟩

theorem mem_sortStrings {x : String} {l : List String} :
    x ∈ sortStrings l ↔ x ∈ l :=
  (List.perm_insertionSort _ l).mem_iff

theorem length_sortStrings (l : List String) :
    (sortStrings l).length = l.length :=
  (List.perm_insertionSort _ l).length_eq

theorem mem_finsetAscList {x : TypeId} {s : Finset TypeId} :
    x ∈ finsetAscList s ↔ x ∈ s := by
  rw [← Finset.mem_val]
  unfold finsetAscList
  induction s.val using Quotient.inductionOn with
  | h l =>
    show x ∈ List.insertionSort (· ≤ ·) l ↔ x ∈ (l : Multiset TypeId)
    rw [(List.perm_insertionSort _ l).mem_iff, Multiset.mem_coe]

theorem length_finsetAscList (s : Finset TypeId) :
    (finsetAscList s).length = s.card := by
  unfold finsetAscList
  show _ = Multiset.card s.val
  induction s.val using Quotient.inductionOn with
  | h l =>
    show (List.insertionSort (· ≤ ·) l).length = _
    rw [(List.perm_insertionSort _ l).length_eq]
    rfl

theorem joinComma_ne_no_inputs (l : List String) (hne : l ≠ [])
    (hmem : ∀ x ∈ l, x ≠ "no inputs") :
    joinComma l ≠ "no inputs" := by
  cases l with
  | nil => exact absurd rfl hne
  | cons a t =>
    cases t with
    | nil => exact hmem a (by simp)
    | cons b t2 =>
      intro hcontra
      have hc : ',' ∈ (joinComma (a :: b :: t2)).data := by
        show ',' ∈ (a ++ ", " ++ joinComma (b :: t2)).data
        rw [String.data_append, String.data_append]
        refine List.mem_append_left _ (List.mem_append_right _ ?_)
        decide
      rw [hcontra] at hc
      revert hc
      decide

/-- C3: every cluster produced by `gather` is named by the
comma-joined, lexicographically sorted string representations of its
required-input types, and carries the literal name `"no inputs"`
exactly when its required-input set is empty (the last part under the
factual side condition that no input's type string is itself the
literal `"no inputs"`, which `types.TypeString` never produces). -/
theorem gather_cluster_names (set : ProviderSet) (fuel : Nat)
    (gl : List outGroup) (hg : gather set fuel = some gl) :
    ∀ g ∈ gl,
      (g.inputs = ∅ → g.name = "no inputs") ∧
      (g.inputs ≠ ∅ →
        g.name = joinComma (sortStrings ((finsetAscList g.inputs).map set.typeStr))) ∧
      ((∀ t ∈ g.inputs, set.typeStr t ≠ "no inputs") →
        (g.name = "no inputs" ↔ g.inputs = ∅)) := by
  unfold gather at hg
  obtain ⟨s', _, hgl⟩ := Option.map_eq_some'.mp hg
  subst hgl
  intro g hgmem
  rw [mem_sortGroups] at hgmem
  obtain ⟨g0, _, rfl⟩ := List.mem_map.mp hgmem
  have hA : (nameGroup set.typeStr g0).inputs = ∅ →
      (nameGroup set.typeStr g0).name = "no inputs" := by
    intro hempty
    rw [nameGroup_inputs] at hempty
    unfold nameGroup
    rw [if_pos (Finset.card_eq_zero.mpr hempty)]
  have hB : (nameGroup set.typeStr g0).inputs ≠ ∅ →
      (nameGroup set.typeStr g0).name = joinComma (sortStrings
        ((finsetAscList (nameGroup set.typeStr g0).inputs).map set.typeStr)) := by
    intro hne
    rw [nameGroup_inputs] at hne ⊢
    unfold nameGroup
    rw [if_neg (fun h0 => hne (Finset.card_eq_zero.mp h0))]
  refine ⟨hA, hB, ?_⟩
  intro hstr
  constructor
  · intro hname
    by_contra hne0
    have hname2 := hB hne0
    rw [hname] at hname2
    rw [nameGroup_inputs] at hne0 hstr hname2
    have hlen : (sortStrings ((finsetAscList g0.inputs).map set.typeStr)).length
        = g0.inputs.card := by
      rw [length_sortStrings, List.length_map, length_finsetAscList]
    refine joinComma_ne_no_inputs _ ?_ ?_ hname2.symm
    · intro hnil
      rw [hnil] at hlen
      exact hne0 (Finset.card_eq_zero.mp hlen.symm)
    · intro x hx
      rw [mem_sortStrings] at hx
      obtain ⟨t, ht, rfl⟩ := List.mem_map.mp hx
      exact hstr t (mem_finsetAscList.mp ht)
  · exact hA

/-- Witness for C3 on the concrete scope `accSet`: the empty-input
cluster is the one named `"no inputs"`. -/
theorem gather_cluster_names_witness :
    gather accSet 20 = some accGl ∧
    (∀ g ∈ accGl,
      (∀ t ∈ g.inputs, accSet.typeStr t ≠ "no inputs") →
      (g.name = "no inputs" ↔ g.inputs = ∅)) := by
  have hg : gather accSet 20 = some accGl := resEqb_sound (by rfl)
  exact ⟨hg, fun g hgm => (gather_cluster_names accSet 20 accGl hg g hgm).2.2⟩

/-- C5: a `FieldAccessor` output behaves as a one-arg provider whose
single dependency is the parent struct type: its minimal required-input
set equals the parent's, every cluster containing the field type
carries the parent's minimal input set, the parent contributes itself
when it is an external input or injector argument, and popping an
already-visited field type is a no-op of the DFS. -/
theorem gather_field_accessor (set : ProviderSet) (r : TypeId → Nat)
    (fuel : Nat) (gl : List outGroup) (t p : TypeId)
    (hr : RankOk set r) (hg : gather set fuel = some gl)
    (hf : set.For t = .isField p) :
    minIn set r t = minIn set r p ∧
    (∀ g ∈ gl, t ∈ g.outputs → g.inputs = minIn set r p) ∧
    ((set.For p = .isNil ∨ set.For p = .isArg) → minIn set r p = {p}) ∧
    (∀ (st : ProviderSet) (rest : List TypeId) (v : TypeId → Option VMark)
       (gs : List outGroup), (v t).isSome →
         step ⟨st, t :: rest, v, gs⟩ = ⟨st, rest, v, gs⟩) := by
  obtain ⟨h1, _, _, _, _⟩ := gather_groups_spec set r fuel gl hr hg
  refine ⟨minIn_isField hr hf, ?_, ?_, ?_⟩
  · intro g hgm htm
    rw [h1 g hgm t htm, minIn_isField hr hf]
  · rintro (hn | hn)
    · exact minIn_isNil hn
    · exact minIn_isArg hn
  · intro st rest v gs hvs
    unfold step
    dsimp only
    rw [if_pos hvs]

/-- Witness for C5: the field accessor `3` on parent struct `0` in
`accSet` shares the parent's minimal input set. -/
theorem gather_field_accessor_witness :
    accSet.For 3 = .isField 0 ∧ gather accSet 20 = some accGl ∧
    minIn accSet accRank 3 = minIn accSet accRank 0 := by
  have hg : gather accSet 20 = some accGl := resEqb_sound (by rfl)
  exact ⟨rfl, hg,
    (gather_field_accessor accSet accRank 20 accGl 3 0 accRank_ok hg rfl).1⟩

/-- C6: the grouper is deterministic — it is a pure function of the
loaded provider-set data, so any two provider-set values that agree on
the binding table, the output order and the type-string function
produce identical cluster sequences on every run. -/
theorem gather_deterministic (s1 s2 : ProviderSet) (fuel : Nat)
    (hFor : s1.For = s2.For) (hout : s1.outputs = s2.outputs)
    (hstr : s1.typeStr = s2.typeStr) :
    gather s1 fuel = gather s2 fuel := by
  obtain ⟨f1, o1, t1⟩ := s1
  obtain ⟨f2, o2, t2⟩ := s2
  dsimp only at hFor hout hstr
  subst hFor hout hstr
  rfl

/-- Witness for C6: two field-for-field equal provider-set values give
the same clusters. -/
theorem gather_deterministic_witness :
    gather accSet 20 = gather accSetCopy 20 :=
  gather_deterministic accSet accSetCopy 20 rfl rfl rfl

theorem foldDrain_set (fuel : Nat) :
    ∀ (outs : List TypeId) (s s' : GatherState),
      outs.foldlM (fun s k => drain fuel (pushOutput s k)) s = some s' →
      s'.set = s.set := by
  intro outs
  induction outs with
  | nil =>
    intro s s' h
    simp only [List.foldlM_nil, Option.pure_def, Option.some.injEq] at h
    subst h
    rfl
  | cons k ks ih =>
    intro s s' h
    rw [List.foldlM_cons] at h
    cases hd : drain fuel (pushOutput s k) with
    | none => rw [hd] at h; cases h
    | some s1 =>
      rw [hd] at h
      simp only [Option.bind_eq_bind, Option.some_bind] at h
      rw [ih s1 s' h, drain_set _ _ _ hd, pushOutput_set]

/-- C7: the DFS of `gather` never mutates the provider set it reads —
the set threaded through the walk is unchanged when the walk
completes — and all visitation state is freshly allocated at the start
of each invocation: the initial state has an empty stack, an empty
`inputVisited` table and no groups. -/
theorem gather_frame :
    (∀ (set : ProviderSet) (fuel : Nat) (s' : GatherState),
       gatherLoop set fuel = some s' → s'.set = set) ∧
    (∀ set : ProviderSet,
       gatherStart set = ⟨set, [], fun _ => none, []⟩) := by
  constructor
  · intro set fuel s' h
    unfold gatherLoop at h
    exact foldDrain_set fuel set.outputs (gatherStart set) s' h
  · intro set
    rfl

/-- Witness for C7 on a provider set with no outputs: the completed
walk returns the provider set unchanged. -/
theorem gather_frame_witness :
    (gatherStart emptyOutSet).set = emptyOutSet :=
  gather_frame.1 emptyOutSet 0 (gatherStart emptyOutSet) rfl

end Wireplus

end ClaimsC2C3C5C6C7

section ClaimC4Infra

namespace Wireplus

theorem step_visited_pop (st : ProviderSet) (curr : TypeId)
    (rest : List TypeId) (v : TypeId → Option VMark) (gs : List outGroup)
    (h : (v curr).isSome) :
    step ⟨st, curr :: rest, v, gs⟩ = ⟨st, rest, v, gs⟩ := by
  unfold step
  dsimp only
  rw [if_pos h]

theorem step_provider_push (st : ProviderSet) (curr a : TypeId)
    (rest : List TypeId) (v : TypeId → Option VMark) (gs : List outGroup)
    (hFor : st.For curr = .isProvider [a])
    (hvc : v curr = none) (hva : v a = none) :
    step ⟨st, curr :: rest, v, gs⟩ = ⟨st, a :: curr :: rest, v, gs⟩ := by
  unfold step
  dsimp only
  rw [if_neg (by rw [hvc]; simp)]
  rw [hFor]
  dsimp only
  have hfil : List.filter (fun x => (v x).isNone) [a] = [a] := by
    simp [List.filter, hva]
  rw [hfil]
  rw [if_neg (by simp)]
  rfl

theorem cyc_drain_none :
    ∀ (n : Nat) (stk : List TypeId) (v : TypeId → Option VMark)
      (gs : List outGroup),
      stk ≠ [] → (∀ t ∈ stk, t = 0 ∨ t = 1) →
      v 0 = none → v 1 = none →
      drain n ⟨cycSet, stk, v, gs⟩ = none := by
  intro n
  induction n with
  | zero =>
    intro stk v gs hne helem h0 h1
    unfold drain
    rw [if_neg (by simpa [List.isEmpty_iff] using hne)]
  | succ n ih =>
    intro stk v gs hne helem h0 h1
    unfold drain
    rw [if_neg (by simpa [List.isEmpty_iff] using hne)]
    cases stk with
    | nil => exact absurd rfl hne
    | cons curr rest =>
      rcases helem curr (List.mem_cons_self _ _) with rfl | rfl
      · rw [step_provider_push cycSet 0 1 rest v gs rfl h0 h1]
        apply ih _ v gs (by simp) ?_ h0 h1
        intro x hx
        rcases List.mem_cons.mp hx with rfl | hx
        · exact Or.inr rfl
        · rcases List.mem_cons.mp hx with rfl | hx
          · exact Or.inl rfl
          · exact helem x (List.mem_cons_of_mem _ hx)
      · rw [step_provider_push cycSet 1 0 rest v gs rfl h1 h0]
        apply ih _ v gs (by simp) ?_ h0 h1
        intro x hx
        rcases List.mem_cons.mp hx with rfl | hx
        · exact Or.inl rfl
        · rcases List.mem_cons.mp hx with rfl | hx
          · exact Or.inr rfl
          · exact helem x (List.mem_cons_of_mem _ hx)

theorem mem_foldl_union {l : List TypeId} {f : TypeId → Finset TypeId}
    {acc : Finset TypeId} {x : TypeId} :
    x ∈ l.foldl (fun acc a => acc ∪ f a) acc ↔ x ∈ acc ∨ ∃ a ∈ l, x ∈ f a := by
  induction l generalizing acc with
  | nil => simp
  | cons a l ih =>
    rw [List.foldl_cons, ih]
    simp only [Finset.mem_union, List.mem_cons]
    constructor
    · rintro ((hx | hx) | ⟨b, hb, hx⟩)
      · exact Or.inl hx
      · exact Or.inr ⟨a, Or.inl rfl, hx⟩
      · exact Or.inr ⟨b, Or.inr hb, hx⟩
    · rintro (hx | ⟨b, (rfl | hb), hx⟩)
      · exact Or.inl (Or.inl hx)
      · exact Or.inl (Or.inr hx)
      · exact Or.inr ⟨b, hb, hx⟩

theorem self_mem_reachF (set : ProviderSet) (n : Nat) (t : TypeId) :
    t ∈ reachF set n t := by
  cases n with
  | zero => simp [reachF]
  | succ n => simp [reachF]

theorem reachF_closed (set : ProviderSet) (r : TypeId → Nat)
    (hr : RankOk set r) :
    ∀ (n : Nat) (t : TypeId), r t ≤ n →
      ∀ x ∈ reachF set n t, ∀ a ∈ deps (set.For x), a ∈ reachF set n t := by
  intro n
  induction n with
  | zero =>
    intro t ht x hx a ha
    simp only [reachF, Finset.mem_singleton] at hx
    subst hx
    have := hr x a ha
    omega
  | succ n ih =>
    intro t ht x hx a ha
    simp only [reachF, Finset.mem_insert] at hx ⊢
    rcases hx with rfl | hx
    · right
      rw [mem_foldl_union]
      exact Or.inr ⟨a, ha, self_mem_reachF set n a⟩
    · rw [mem_foldl_union] at hx
      rcases hx with hx | ⟨b, hb, hx⟩
      · simp at hx
      · have hrb : r b ≤ n := by
          have := hr t b hb
          omega
        have hmem := ih b hrb x hx a ha
        right
        rw [mem_foldl_union]
        exact Or.inr ⟨b, hb, hmem⟩

theorem unvisCount_le_of_vExt {U : Finset TypeId}
    {v w : TypeId → Option VMark} (h : vExt v w) :
    unvisCount U w ≤ unvisCount U v := by
  apply Finset.card_le_card
  intro x hx
  rw [Finset.mem_filter] at hx ⊢
  refine ⟨hx.1, ?_⟩
  cases hv : v x with
  | none => rfl
  | some m =>
    have hw := h x m hv
    rw [hx.2] at hw
    cases hw

theorem unvisCount_lt {U : Finset TypeId} {v w : TypeId → Option VMark}
    (h : vExt v w) {a : TypeId} (haU : a ∈ U) (hva : v a = none)
    (hwa : (w a).isSome) : unvisCount U w < unvisCount U v := by
  apply Finset.card_lt_card
  rw [Finset.ssubset_iff_of_subset]
  · refine ⟨a, ?_, ?_⟩
    · rw [Finset.mem_filter]
      exact ⟨haU, hva⟩
    · rw [Finset.mem_filter]
      rintro ⟨_, hwnone⟩
      rw [hwnone] at hwa
      cases hwa
  · intro x hx
    rw [Finset.mem_filter] at hx ⊢
    refine ⟨hx.1, ?_⟩
    cases hv : v x with
    | none => rfl
    | some m =>
      have hw := h x m hv
      rw [hx.2] at hw
      cases hw

theorem drain_of_iterate :
    ∀ (k : Nat) (s s' : GatherState),
      step^[k] s = s' → s'.stk = [] →
      (∀ j, j < k → (step^[j] s).stk ≠ []) →
      ∀ n, k ≤ n → drain n s = some s' := by
  intro k
  induction k with
  | zero =>
    intro s s' hs hempty _ n _
    rw [Function.iterate_zero_apply] at hs
    subst hs
    cases n <;>
      (unfold drain; rw [if_pos (by rw [List.isEmpty_iff]; exact hempty)])
  | succ k ih =>
    intro s s' hs hempty hmid n hn
    cases n with
    | zero => omega
    | succ n =>
      have hne : s.stk ≠ [] := by
        have := hmid 0 (Nat.succ_pos k)
        rwa [Function.iterate_zero_apply] at this
      unfold drain
      rw [if_neg (by simpa [List.isEmpty_iff] using hne)]
      apply ih (step s) s' ?_ hempty ?_ n (Nat.le_of_succ_le_succ hn)
      · rw [← Function.iterate_succ_apply]
        exact hs
      · intro j hj
        rw [← Function.iterate_succ_apply]
        exact hmid (j + 1) (Nat.succ_lt_succ hj)

theorem drain_mono :
    ∀ (n : Nat) (s s' : GatherState), drain n s = some s' →
      ∀ m, n ≤ m → drain m s = some s' := by
  intro n
  induction n with
  | zero =>
    intro s s' h m _
    unfold drain at h
    split at h
    · cases h
      rename_i hemp
      cases m <;> (unfold drain; rw [if_pos hemp])
    · cases h
  | succ n ih =>
    intro s s' h m hm
    unfold drain at h
    split at h
    · cases h
      rename_i hemp
      cases m <;> (unfold drain; rw [if_pos hemp])
    · rename_i hemp
      cases m with
      | zero => omega
      | succ m =>
        unfold drain
        rw [if_neg hemp]
        exact ih (step s) s' h m (Nat.le_of_succ_le_succ hm)

end Wireplus

end ClaimC4Infra

section ClaimC4Main

namespace Wireplus

/-- Core progress argument for the DFS of `gather` on an acyclic
dependency graph: from any state whose top `t` lies in a finite
dep-closed universe `U`, the walk pops `t` after finitely many steps,
leaving `t` visited, only extending the visitation table, and keeping
the rest of the stack untouched (every intermediate stack strictly
extends `rest`).  Lexicographic induction on (number of unvisited
types in `U`, rank of `t`). -/
theorem dfsProgress (set : ProviderSet) (r : TypeId → Nat)
    (hr : RankOk set r) (U : Finset TypeId)
    (hU : ∀ x ∈ U, ∀ a ∈ deps (set.For x), a ∈ U) :
    ∀ (c ρ : Nat) (t : TypeId) (rest : List TypeId)
      (v : TypeId → Option VMark) (gs : List outGroup),
      unvisCount U v ≤ c → r t ≤ ρ → t ∈ U →
      ∃ (k : Nat) (v' : TypeId → Option VMark) (gs' : List outGroup),
        step^[k] ⟨set, t :: rest, v, gs⟩ = ⟨set, rest, v', gs'⟩ ∧
        vExt v v' ∧ (v' t).isSome ∧ unvisCount U v' ≤ unvisCount U v ∧
        (∀ j, j < k → ∃ pre, pre ≠ [] ∧
          (step^[j] ⟨set, t :: rest, v, gs⟩).stk = pre ++ rest) := by
  intro c
  induction c using Nat.strong_induction_on with
  | _ c IH1 =>
  intro ρ
  induction ρ using Nat.strong_induction_on with
  | _ ρ IH2 =>
  intro t rest v gs hc hρ htU
  cases hvt : v t with
  | some m =>
    refine ⟨1, v, gs, ?_, fun x mx hx => hx, (by rw [hvt]; rfl), le_refl _, ?_⟩
    · rw [Function.iterate_one]
      exact step_visited_pop set t rest v gs (by rw [hvt]; rfl)
    · intro j hj
      have hj0 : j = 0 := by omega
      subst hj0
      exact ⟨[t], (by simp), (by rw [Function.iterate_zero_apply]; rfl)⟩
  | none =>
    rcases step_shape set t rest v gs with ⟨m, gs1, hv0, heq⟩ | ⟨hvs, _⟩ |
      ⟨L, hLne, hLmem, _, heq⟩
    · have hvE1 : vExt v (updFn v t (some m)) := by
        intro x mx hx
        have hxne : x ≠ t := fun hh => by rw [hh, hvt] at hx; cases hx
        rw [updFn_ne _ _ _ _ hxne]
        exact hx
      refine ⟨1, updFn v t (some m), gs1, ?_, hvE1, ?_, ?_, ?_⟩
      · rw [Function.iterate_one]
        exact heq
      · rw [updFn_same]
        rfl
      · exact unvisCount_le_of_vExt hvE1
      · intro j hj
        have hj0 : j = 0 := by omega
        subst hj0
        exact ⟨[t], (by simp), (by rw [Function.iterate_zero_apply]; rfl)⟩
    · rw [hvt] at hvs
      cases hvs
    · have hLU : ∀ a ∈ L, a ∈ U ∧ r a < r t := by
        intro a ha
        obtain ⟨hdep, _⟩ := hLmem a ha
        exact ⟨hU t htU a hdep, hr t a hdep⟩
      have processL : ∀ (M : List TypeId) (v1 : TypeId → Option VMark)
          (gs1 : List outGroup),
          (∀ a ∈ M, a ∈ U ∧ r a < r t) →
          unvisCount U v1 ≤ unvisCount U v →
          ∃ (k2 : Nat) (v2 : TypeId → Option VMark) (gs2 : List outGroup),
            step^[k2] ⟨set, M ++ t :: rest, v1, gs1⟩ = ⟨set, t :: rest, v2, gs2⟩ ∧
            vExt v1 v2 ∧ unvisCount U v2 ≤ unvisCount U v1 ∧
            (∀ a ∈ M, (v2 a).isSome) ∧
            (∀ j, j < k2 → ∃ pre, pre ≠ [] ∧
              (step^[j] ⟨set, M ++ t :: rest, v1, gs1⟩).stk = pre ++ t :: rest) := by
        intro M
        induction M with
        | nil =>
          intro v1 gs1 _ _
          exact ⟨0, v1, gs1, rfl, fun x mx hx => hx, le_refl _,
            (by intro a ha; cases ha), (by intro j hj; omega)⟩
        | cons a M ihM =>
          intro v1 gs1 hmem hle
          obtain ⟨haU, har⟩ := hmem a (List.mem_cons_self a M)
          have hstep_a : ∃ (ka : Nat) (va : TypeId → Option VMark)
              (gsa : List outGroup),
              step^[ka] ⟨set, a :: (M ++ t :: rest), v1, gs1⟩ =
                ⟨set, M ++ t :: rest, va, gsa⟩ ∧
              vExt v1 va ∧ (va a).isSome ∧
              unvisCount U va ≤ unvisCount U v1 ∧
              (∀ j, j < ka → ∃ pre, pre ≠ [] ∧
                (step^[j] ⟨set, a :: (M ++ t :: rest), v1, gs1⟩).stk =
                  pre ++ (M ++ t :: rest)) := by
            rcases Nat.lt_or_ge (unvisCount U v1) c with hlt | hge
            · exact IH1 (unvisCount U v1) hlt (r a) a (M ++ t :: rest) v1 gs1
                (le_refl _) (le_refl _) haU
            · exact IH2 (r a) (lt_of_lt_of_le har hρ) a (M ++ t :: rest) v1 gs1
                (hle.trans hc) (le_refl _) haU
          obtain ⟨ka, va, gsa, hita, hvEa, hsomea, hcnta, hprea⟩ := hstep_a
          obtain ⟨kM, v2, gs2, hitM, hvEM, hcntM, hsomeM, hpreM⟩ :=
            ihM va gsa (fun x hx => hmem x (List.mem_cons_of_mem a hx))
              (hcnta.trans hle)
          refine ⟨kM + ka, v2, gs2, ?_, vExt_trans hvEa hvEM,
            hcntM.trans hcnta, ?_, ?_⟩
          · rw [Function.iterate_add_apply]
            simp only [List.cons_append]
            rw [hita]
            exact hitM
          · intro x hx
            rcases List.mem_cons.mp hx with rfl | hx
            · obtain ⟨mm, hmm⟩ := Option.isSome_iff_exists.mp hsomea
              rw [hvEM x mm hmm]
              rfl
            · exact hsomeM x hx
          · intro j hj
            simp only [List.cons_append]
            rcases Nat.lt_or_ge j ka with hjlt | hjge
            · obtain ⟨pre, hpne, hpeq⟩ := hprea j hjlt
              refine ⟨pre ++ M, (by simp [hpne]), ?_⟩
              rw [hpeq, List.append_assoc]
            · obtain ⟨pre, hpne, hpeq⟩ := hpreM (j - ka) (by omega)
              refine ⟨pre, hpne, ?_⟩
              rw [show j = (j - ka) + ka from (by omega),
                Function.iterate_add_apply, hita]
              exact hpeq
      obtain ⟨k2, v2, gs2, hit2, hvE2, hcnt2, hsome2, hpre2⟩ :=
        processL L v gs hLU (le_refl _)
      obtain ⟨a0, ha0⟩ := List.exists_mem_of_ne_nil L hLne
      have hstrict : unvisCount U v2 < unvisCount U v :=
        unvisCount_lt hvE2 (hLU a0 ha0).1 (hLmem a0 ha0).2 (hsome2 a0 ha0)
      obtain ⟨k3, v3, gs3, hit3, hvE3, hsome3, hcnt3, hpre3⟩ :=
        IH1 (unvisCount U v2) (lt_of_lt_of_le hstrict hc) (r t) t rest v2 gs2
          (le_refl _) (le_refl _) htU
      have hmid : step^[k2 + 1] ⟨set, t :: rest, v, gs⟩ = ⟨set, t :: rest, v2, gs2⟩ := by
        rw [Function.iterate_add_apply, Function.iterate_one, heq]
        exact hit2
      refine ⟨k3 + (k2 + 1), v3, gs3, ?_, vExt_trans hvE2 hvE3, hsome3,
        hcnt3.trans (le_of_lt hstrict), ?_⟩
      · rw [Function.iterate_add_apply, hmid]
        exact hit3
      · intro j hj
        by_cases hj0 : j = 0
        · subst hj0
          exact ⟨[t], (by simp), (by rw [Function.iterate_zero_apply]; rfl)⟩
        · rcases Nat.lt_or_ge j (k2 + 1) with hjlt | hjge
          · obtain ⟨pre, hpne, hpeq⟩ := hpre2 (j - 1) (by omega)
            refine ⟨pre ++ [t], (by simp), ?_⟩
            rw [show j = (j - 1) + 1 from (by omega),
              Function.iterate_add_apply, Function.iterate_one, heq, hpeq]
            rw [List.append_assoc]
            rfl
          · obtain ⟨pre, hpne, hpeq⟩ := hpre3 (j - (k2 + 1)) (by omega)
            refine ⟨pre, hpne, ?_⟩
            rw [show j = (j - (k2 + 1)) + (k2 + 1) from (by omega),
              Function.iterate_add_apply, hmid]
            exact hpeq

end Wireplus

end ClaimC4Main

section ClaimC4

namespace Wireplus

theorem gatherFold_exists (set : ProviderSet) (r : TypeId → Nat)
    (hr : RankOk set r) :
    ∀ (outs : List TypeId) (v : TypeId → Option VMark) (gs : List outGroup),
      ∃ (F : Nat) (s' : GatherState), ∀ F', F ≤ F' →
        outs.foldlM (fun s k => drain F' (pushOutput s k))
          (⟨set, [], v, gs⟩ : GatherState) = some s' := by
  intro outs
  induction outs with
  | nil =>
    intro v gs
    exact ⟨0, ⟨set, [], v, gs⟩, fun F' _ => by simp [List.foldlM_nil]⟩
  | cons k ks ih =>
    intro v gs
    by_cases hvk : (v k).isNone
    · have hUcl := reachF_closed set r hr (r k) k (le_refl _)
      obtain ⟨k1, v1, gs1, hit, hvE, hsome, hcnt, hpre⟩ :=
        dfsProgress set r hr (reachF set (r k) k) hUcl
          (unvisCount (reachF set (r k) k) v) (r k) k [] v gs
          (le_refl _) (le_refl _) (self_mem_reachF set _ k)
      have hdrain : drain k1 ⟨set, [k], v, gs⟩ = some ⟨set, [], v1, gs1⟩ := by
        apply drain_of_iterate k1 _ _ hit rfl ?_ k1 (le_refl _)
        intro j hj
        obtain ⟨pre, hpne, hpeq⟩ := hpre j hj
        rw [hpeq]
        simpa using hpne
      obtain ⟨F2, s', hF2⟩ := ih v1 gs1
      refine ⟨max k1 F2, s', ?_⟩
      intro F' hF'
      rw [List.foldlM_cons]
      have hpush : pushOutput ⟨set, [], v, gs⟩ k = ⟨set, [k], v, gs⟩ := by
        unfold pushOutput
        rw [if_pos hvk]
      rw [hpush,
        drain_mono k1 _ _ hdrain F' (le_trans (le_max_left _ _) hF')]
      simp only [Option.bind_eq_bind, Option.some_bind]
      exact hF2 F' (le_trans (le_max_right _ _) hF')
    · obtain ⟨F2, s', hF2⟩ := ih v gs
      refine ⟨F2, s', ?_⟩
      intro F' hF'
      rw [List.foldlM_cons]
      have hpush : pushOutput ⟨set, [], v, gs⟩ k = ⟨set, [], v, gs⟩ := by
        unfold pushOutput
        rw [if_neg hvk]
      have hdr : drain F' (⟨set, [], v, gs⟩ : GatherState) =
          some ⟨set, [], v, gs⟩ := by
        cases F' <;> rfl
      rw [hpush, hdr]
      simp only [Option.bind_eq_bind, Option.some_bind]
      exact hF2 F' hF'

/-- C4 (counterexample): the claim that `gather` terminates on every
finite provider set including cyclic ones is false — its DFS carries no
in-progress/cycle guard, and on the two-provider cycle `cycSet`
(provider for `0` needs `1`, provider for `1` needs `0`) the worklist
loop re-pushes the two types forever, so no amount of fuel completes
the walk. -/
theorem gather_cycle_diverges :
    ¬ ∃ (fuel : Nat) (gl : List outGroup), gather cycSet fuel = some gl := by
  rintro ⟨fuel, gl, hg⟩
  unfold gather gatherLoop at hg
  have hpush : pushOutput (gatherStart cycSet) 0 =
      ⟨cycSet, [0], fun _ => none, []⟩ := rfl
  have hdr : drain fuel (pushOutput (gatherStart cycSet) 0) = none := by
    rw [hpush]
    apply cyc_drain_none fuel [0] _ [] (by simp) ?_ rfl rfl
    intro x hx
    rw [List.mem_singleton] at hx
    exact Or.inl hx
  have houts : cycSet.outputs = [0] := rfl
  rw [houts, List.foldlM_cons, hdr] at hg
  simp at hg

/-- C4 (amended): the grouper `gather` has no in-progress/cycle guard
in its depth-first walk, so it terminates only on provider sets whose
dependency graph is acyclic: for every provider set admitting a rank
function that strictly decreases along provider args and field parents,
some finite fuel completes the walk and yields the cluster list. -/
theorem gather_terminates_on_acyclic (set : ProviderSet) (r : TypeId → Nat)
    (hr : RankOk set r) :
    ∃ (fuel : Nat) (gl : List outGroup), gather set fuel = some gl := by
  obtain ⟨F, s', hF⟩ := gatherFold_exists set r hr set.outputs
    (fun _ => none) []
  refine ⟨F, sortGroups (s'.groups.map (nameGroup set.typeStr)), ?_⟩
  unfold gather gatherLoop
  have hstart : gatherStart set = (⟨set, [], fun _ => none, []⟩ : GatherState) := rfl
  rw [hstart, hF F (le_refl _)]
  rfl

/-- Witness for the amended C4: the acyclic scope `accSet` admits the
rank function `accRank`, so `gather` terminates on it. -/
theorem gather_terminates_on_acyclic_witness :
    RankOk accSet accRank ∧
    ∃ (fuel : Nat) (gl : List outGroup), gather accSet fuel = some gl :=
  ⟨accRank_ok, gather_terminates_on_acyclic accSet accRank accRank_ok⟩

end Wireplus

end ClaimC4
